import Mathlib

/-
  Verification development for the rust-raytracing repository.

  The embedding models the core numeric code over exact rationals.  Where the
  source relies on IEEE-754 special values (the slab test in aabb.rs divides by
  a possibly-zero direction component and multiplies the result by a possibly
  zero difference), we use an extended number type `F` carrying signed
  infinities and a NaN, with IEEE comparison semantics (every comparison with
  NaN is false).  Finite f64 values are modelled as rationals; signed zero is
  not modelled (the sign of 0 only matters when 1 is divided by a negative
  zero, which does not arise from the expressions embedded here under that
  restriction, as noted at the relevant definitions).
-/

namespace RT

/-- Vec3 from src/lib/vec.rs: three components, modelled as exact rationals. -/
structure Vec3 where
  x : ℚ
  y : ℚ
  z : ℚ
deriving DecidableEq, Repr

namespace Vec3

/-- Component access mirroring the Index<usize> impl on Vec3 (indices 0,1,2). -/
def nth (v : Vec3) (n : ℕ) : ℚ :=
  if n = 0 then v.x else if n = 1 then v.y else v.z

/-- Vec3::zero. -/
def zero : Vec3 := ⟨0, 0, 0⟩

/-- Componentwise addition (impl Add for Vec3). -/
def add (a b : Vec3) : Vec3 := ⟨a.x + b.x, a.y + b.y, a.z + b.z⟩

/-- Componentwise subtraction (impl Sub for Vec3). -/
def sub (a b : Vec3) : Vec3 := ⟨a.x - b.x, a.y - b.y, a.z - b.z⟩

/-- Negation (impl Neg for Vec3). -/
def neg (a : Vec3) : Vec3 := ⟨-a.x, -a.y, -a.z⟩

/-- Scalar multiplication (impl Mul<f64> for Vec3). -/
def smul (q : ℚ) (a : Vec3) : Vec3 := ⟨q * a.x, q * a.y, q * a.z⟩

/-- Componentwise multiplication (impl Mul<Vec3> for Vec3). -/
def cmul (a b : Vec3) : Vec3 := ⟨a.x * b.x, a.y * b.y, a.z * b.z⟩

/-- Division by a scalar (impl Div<f64> for Vec3); division by zero yields the
zero vector in ℚ (f64 would yield NaN/inf components, which are equally
non-unit-length, the only use this model makes of the case). -/
def sdiv (a : Vec3) (q : ℚ) : Vec3 := ⟨a.x / q, a.y / q, a.z / q⟩

/-- Vec3::dot. -/
def dot (a b : Vec3) : ℚ := a.x * b.x + a.y * b.y + a.z * b.z

/-- Vec3::length_squared. -/
def lengthSquared (a : Vec3) : ℚ := a.x * a.x + a.y * a.y + a.z * a.z

end Vec3

/-- Extended value type for f64 computations whose IEEE special values matter:
a rational (any finite double is a rational), the two infinities, and NaN. -/
inductive F where
  | nan : F
  | ninf : F
  | pinf : F
  | fin : ℚ → F
deriving DecidableEq, Repr

namespace F

/-- IEEE strict less-than: false whenever either operand is NaN. -/
def flt : F → F → Bool
  | .nan, _ => false
  | _, .nan => false
  | .ninf, .ninf => false
  | .ninf, _ => true
  | .fin _, .ninf => false
  | .fin a, .fin b => decide (a < b)
  | .fin _, .pinf => true
  | .pinf, _ => false

/-- IEEE less-or-equal: false whenever either operand is NaN. -/
def fle : F → F → Bool
  | .nan, _ => false
  | _, .nan => false
  | .ninf, _ => true
  | .fin _, .ninf => false
  | .fin a, .fin b => decide (a ≤ b)
  | .fin _, .pinf => true
  | .pinf, .pinf => true
  | .pinf, _ => false

/-- Product of a finite value with an extended value, per IEEE: a finite times
an infinity keeps the sign, except that 0 times an infinity is NaN. -/
def finMul (a : ℚ) : F → F
  | .fin b => .fin (a * b)
  | .pinf => if 0 < a then .pinf else if a < 0 then .ninf else .nan
  | .ninf => if 0 < a then .ninf else if a < 0 then .pinf else .nan
  | .nan => .nan

/-- Reciprocal of a finite direction component, per IEEE: 1.0/0.0 = +inf.
(The source only ever divides 1.0 by a stored f64; a negative-zero input,
which would give -inf, is not modelled since ℚ has a single zero.) -/
def finInv (d : ℚ) : F :=
  if d = 0 then .pinf else .fin d⁻¹

end F

/-- Ray from src/common/ray.rs: origin, direction, time, debug flag. -/
structure Ray where
  orig : Vec3
  dir : Vec3
  tm : ℚ
  debugBvh : Bool
deriving DecidableEq, Repr

/-- Ray::at. -/
def Ray.at (r : Ray) (t : ℚ) : Vec3 := r.orig.add (Vec3.smul t r.dir)

/-- Aabb from src/aabb.rs: a minimum and maximum corner. -/
structure Aabb where
  minimum : Vec3
  maximum : Vec3
deriving DecidableEq, Repr

namespace Aabb

/-- One iteration of the slab loop in Aabb::hit (src/aabb.rs lines 24-36):
computes the per-axis entry/exit values from (boundary - origin) * (1/dir),
swaps them when 1/dir < 0, shrinks the running interval, and signals the
early false return (none) when t_max <= t_min. -/
def hitAxis (b : Aabb) (r : Ray) (a : ℕ) (tmin tmax : F) : Option (F × F) :=
  let invD := F.finInv (r.dir.nth a)
  let t0 := F.finMul (b.minimum.nth a - r.orig.nth a) invD
  let t1 := F.finMul (b.maximum.nth a - r.orig.nth a) invD
  let lo := if F.flt invD (F.fin 0) then t1 else t0
  let hi := if F.flt invD (F.fin 0) then t0 else t1
  let tmin1 := if F.flt tmin lo then lo else tmin
  let tmax1 := if F.flt hi tmax then hi else tmax
  if F.fle tmax1 tmin1 then none else some (tmin1, tmax1)

/-- Aabb::hit (src/aabb.rs lines 23-38): the slab method over the three axes,
returning false as soon as the interval becomes empty. -/
def hit (b : Aabb) (r : Ray) (tmin tmax : F) : Bool :=
  match b.hitAxis r 0 tmin tmax with
  | none => false
  | some (m0, x0) =>
    match b.hitAxis r 1 m0 x0 with
    | none => false
    | some (m1, x1) => (b.hitAxis r 2 m1 x1).isSome

/-- Aabb::surrounding_box (src/aabb.rs lines 40-52): componentwise min of the
minima and max of the maxima. -/
def surroundingBox (b0 b1 : Aabb) : Aabb :=
  ⟨⟨min b0.minimum.x b1.minimum.x,
    min b0.minimum.y b1.minimum.y,
    min b0.minimum.z b1.minimum.z⟩,
   ⟨max b0.maximum.x b1.maximum.x,
    max b0.maximum.y b1.maximum.y,
    max b0.maximum.z b1.maximum.z⟩⟩

/-- A point is contained in a box when it lies within the min/max bounds on
every axis. -/
def contains (b : Aabb) (p : Vec3) : Prop :=
  b.minimum.x ≤ p.x ∧ p.x ≤ b.maximum.x ∧
  b.minimum.y ≤ p.y ∧ p.y ≤ b.maximum.y ∧
  b.minimum.z ≤ p.z ∧ p.z ≤ b.maximum.z

/-- The corner of a box selected by three booleans (max corner coordinate when
the boolean is true, min corner coordinate otherwise). -/
def corner (b : Aabb) (i j k : Bool) : Vec3 :=
  ⟨if i then b.maximum.x else b.minimum.x,
   if j then b.maximum.y else b.minimum.y,
   if k then b.maximum.z else b.minimum.z⟩

/-- The AABB data-model invariant: minimum[i] <= maximum[i] on every axis. -/
def WellFormed (b : Aabb) : Prop :=
  b.minimum.x ≤ b.maximum.x ∧ b.minimum.y ≤ b.maximum.y ∧ b.minimum.z ≤ b.maximum.z

end Aabb

/-- IEEE-style max of two extended values (the shape the slab loop uses to
raise t_min); used to express the overall entry parameter of a ray into a box. -/
def fmax (a b : F) : F := if F.flt a b then b else a

/-- IEEE-style min of two extended values (the shape the slab loop uses to
lower t_max); used to express the overall exit parameter of a ray out of a box. -/
def fmin (a b : F) : F := if F.flt a b then a else b

/-- The per-axis entry value of the slab method: the lower of the two values
computed from (boundary - origin) * (1/dir), after the negative-direction swap. -/
def slabLo (b : Aabb) (r : Ray) (a : ℕ) : F :=
  let invD := F.finInv (r.dir.nth a)
  let t0 := F.finMul (b.minimum.nth a - r.orig.nth a) invD
  let t1 := F.finMul (b.maximum.nth a - r.orig.nth a) invD
  if F.flt invD (F.fin 0) then t1 else t0

/-- The per-axis exit value of the slab method (upper value after the swap). -/
def slabHi (b : Aabb) (r : Ray) (a : ℕ) : F :=
  let invD := F.finInv (r.dir.nth a)
  let t0 := F.finMul (b.minimum.nth a - r.orig.nth a) invD
  let t1 := F.finMul (b.maximum.nth a - r.orig.nth a) invD
  if F.flt invD (F.fin 0) then t0 else t1

/-- Entry parameter of a ray into a box under the slab method: the max of the
three per-axis entry values. -/
def slabEntry (b : Aabb) (r : Ray) : F :=
  fmax (fmax (slabLo b r 0) (slabLo b r 1)) (slabLo b r 2)

/-- Exit parameter of a ray out of a box under the slab method: the min of the
three per-axis exit values. -/
def slabExit (b : Aabb) (r : Ray) : F :=
  fmin (fmin (slabHi b r 0) (slabHi b r 1)) (slabHi b r 2)

/-- The unit box [(0,0,0),(1,1,1)] of the spec's slab-test example. -/
def exampleBox : Aabb := ⟨⟨0, 0, 0⟩, ⟨1, 1, 1⟩⟩

/-- The example ray with origin (0.5,0.5,-5) and direction (0,0,1). -/
def exampleRay : Ray := ⟨⟨1/2, 1/2, -5⟩, ⟨0, 0, 1⟩, 0, false⟩

/-- Any point of a box is a point of the surrounding box of that box with any
other box (left argument). -/
lemma contains_surround_left {A : Aabb} (B : Aabb) {p : Vec3}
    (h : A.contains p) : (Aabb.surroundingBox A B).contains p := by
  obtain ⟨h1, h2, h3, h4, h5, h6⟩ := h
  exact ⟨le_trans (min_le_left _ _) h1, le_trans h2 (le_max_left _ _),
         le_trans (min_le_left _ _) h3, le_trans h4 (le_max_left _ _),
         le_trans (min_le_left _ _) h5, le_trans h6 (le_max_left _ _)⟩

/-- Any point of a box is a point of the surrounding box of any other box with
that box (right argument). -/
lemma contains_surround_right (A : Aabb) {B : Aabb} {p : Vec3}
    (h : B.contains p) : (Aabb.surroundingBox A B).contains p := by
  obtain ⟨h1, h2, h3, h4, h5, h6⟩ := h
  exact ⟨le_trans (min_le_right _ _) h1, le_trans h2 (le_max_right _ _),
         le_trans (min_le_right _ _) h3, le_trans h4 (le_max_right _ _),
         le_trans (min_le_right _ _) h5, le_trans h6 (le_max_right _ _)⟩

/-- A well-formed box contains each of its own corners. -/
lemma corner_mem {A : Aabb} (hA : A.WellFormed) (i j k : Bool) :
    A.contains (A.corner i j k) := by
  obtain ⟨h1, h2, h3⟩ := hA
  refine ⟨?_, ?_, ?_, ?_, ?_, ?_⟩ <;> cases i <;> cases j <;> cases k <;>
    simp [Aabb.corner] <;> linarith

/-- C6: Aabb::surrounding_box is the componentwise min of minima and max of
maxima; it contains every corner of both input boxes, and on each axis each of
its faces coincides with a face of one of the inputs (so it is the smallest
axis-aligned box containing both). -/
theorem surroundingBox_bounds (A B : Aabb) (hA : A.WellFormed) (hB : B.WellFormed) :
    (Aabb.surroundingBox A B).minimum =
        ⟨min A.minimum.x B.minimum.x, min A.minimum.y B.minimum.y,
         min A.minimum.z B.minimum.z⟩ ∧
    (Aabb.surroundingBox A B).maximum =
        ⟨max A.maximum.x B.maximum.x, max A.maximum.y B.maximum.y,
         max A.maximum.z B.maximum.z⟩ ∧
    (∀ i j k : Bool, (Aabb.surroundingBox A B).contains (A.corner i j k) ∧
                     (Aabb.surroundingBox A B).contains (B.corner i j k)) ∧
    ((Aabb.surroundingBox A B).minimum.x = A.minimum.x ∨
     (Aabb.surroundingBox A B).minimum.x = B.minimum.x) ∧
    ((Aabb.surroundingBox A B).minimum.y = A.minimum.y ∨
     (Aabb.surroundingBox A B).minimum.y = B.minimum.y) ∧
    ((Aabb.surroundingBox A B).minimum.z = A.minimum.z ∨
     (Aabb.surroundingBox A B).minimum.z = B.minimum.z) ∧
    ((Aabb.surroundingBox A B).maximum.x = A.maximum.x ∨
     (Aabb.surroundingBox A B).maximum.x = B.maximum.x) ∧
    ((Aabb.surroundingBox A B).maximum.y = A.maximum.y ∨
     (Aabb.surroundingBox A B).maximum.y = B.maximum.y) ∧
    ((Aabb.surroundingBox A B).maximum.z = A.maximum.z ∨
     (Aabb.surroundingBox A B).maximum.z = B.maximum.z) := by
  refine ⟨rfl, rfl, ?_, min_choice _ _, min_choice _ _, min_choice _ _,
          max_choice _ _, max_choice _ _, max_choice _ _⟩
  intro i j k
  exact ⟨contains_surround_left B (corner_mem hA i j k),
         contains_surround_right A (corner_mem hB i j k)⟩

/-- Witness for C6 at concrete boxes. -/
theorem surroundingBox_bounds_witness :
    (Aabb.WellFormed ⟨⟨0, 0, 0⟩, ⟨1, 1, 1⟩⟩ ∧
     Aabb.WellFormed ⟨⟨-1, 2, 0⟩, ⟨3, 2, 5⟩⟩) ∧
    ((Aabb.surroundingBox ⟨⟨0, 0, 0⟩, ⟨1, 1, 1⟩⟩ ⟨⟨-1, 2, 0⟩, ⟨3, 2, 5⟩⟩).contains
        (Aabb.corner ⟨⟨0, 0, 0⟩, ⟨1, 1, 1⟩⟩ true false true)) := by
  have hA : Aabb.WellFormed ⟨⟨0, 0, 0⟩, ⟨1, 1, 1⟩⟩ := by
    refine ⟨by norm_num, by norm_num, by norm_num⟩
  have hB : Aabb.WellFormed ⟨⟨-1, 2, 0⟩, ⟨3, 2, 5⟩⟩ := by
    refine ⟨by norm_num, by norm_num, by norm_num⟩
  exact ⟨⟨hA, hB⟩, ((surroundingBox_bounds _ _ hA hB).2.2.1 true false true).1⟩

/-- C5 counterexample: on the spec's own example (box [(0,0,0),(1,1,1)], ray
origin (0.5,0.5,-5), direction (0,0,1)) the slab method's entry parameter is
exactly 5 (the ray starts 5 units before the z=0 face), not approximately 4 as
the claim states; the exit parameter is 6 as claimed. -/
theorem slab_example_entry_is_five_not_four :
    slabEntry exampleBox exampleRay = F.fin 5 ∧
    slabEntry exampleBox exampleRay ≠ F.fin 4 ∧
    (1 : ℚ) ≤ |(5 : ℚ) - 4| := by
  refine ⟨?_, ?_, by norm_num⟩ <;>
    norm_num [slabEntry, slabLo, fmax, F.finInv, F.finMul, F.flt, Vec3.nth,
      exampleBox, exampleRay]

/-- C5 (amended): Aabb::hit follows the slab method, and on the example box
[(0,0,0),(1,1,1)] with the ray from (0.5,0.5,-5) along (0,0,1) it returns true
over the integrator's query window, with entry parameter exactly 5 and exit
parameter exactly 6. -/
theorem aabb_hit_example :
    Aabb.hit exampleBox exampleRay (F.fin (1/1000)) F.pinf = true ∧
    slabEntry exampleBox exampleRay = F.fin 5 ∧
    slabExit exampleBox exampleRay = F.fin 6 := by
  refine ⟨?_, ?_, ?_⟩ <;>
    norm_num [Aabb.hit, Aabb.hitAxis, slabEntry, slabExit, slabLo, slabHi,
      fmax, fmin, F.finInv, F.finMul, F.flt, F.fle, Vec3.nth, exampleBox,
      exampleRay]

/-- Color is an alias of Vec3 (src/lib/color.rs). -/
abbrev Color := Vec3

/-- ScatterResult from src/object/material.rs: an attenuation color and a
scattered ray. -/
structure ScatterResult where
  attenuation : Color
  scattered : Ray

/-- A hit record as the integrator consumes it: the texture coordinates and
hit point together with the behaviour of the material referenced at the hit
point.  The material's scatter advances the RNG, modelled by explicit state
passing over the RNG state type σ; emitted is pure (src/object/material.rs). -/
structure HitRec (σ : Type) where
  u : ℚ
  v : ℚ
  p : Vec3
  emitted : ℚ → ℚ → Vec3 → Color
  scatter : σ → Ray → Option ScatterResult × σ

/-- A world as the integrator consumes it: the Hittable::hit capability with
the RNG modelled by explicit state passing. -/
def World (σ : Type) : Type := σ → Ray → F → F → Option (HitRec σ) × σ

/-- The integrator ray_color (src/common/raytracer.rs lines 32-57), with the
peak_depth instrumentation counter threaded exactly as in the source (it is
incremented on every entry, including the depth <= 0 base case), querying the
world over the window [0.001, +inf). -/
def rayColor {σ : Type} (world : World σ) (rng : σ) (r : Ray) (background : Color)
    (depth : ℤ) (peakDepth : ℤ) : Color × σ × ℤ :=
  let peak1 := peakDepth + 1
  if _h : depth ≤ 0 then (Vec3.zero, rng, peak1)
  else
    match world rng r (F.fin (1/1000)) F.pinf with
    | (some rec, rng1) =>
      let emitted := rec.emitted rec.u rec.v rec.p
      match rec.scatter rng1 r with
      | (some res, rng2) =>
        let rest := rayColor world rng2 res.scattered background (depth - 1) peak1
        (emitted.add (res.attenuation.cmul rest.1), rest.2.1, rest.2.2)
      | (none, rng2) => (emitted, rng2, peak1)
    | (none, rng1) => (background, rng1, peak1)
termination_by depth.toNat
decreasing_by omega

/-- Modelled from the spec: the reference recursive definition of ray_color
from section 4.5 — black at depth <= 0; the background on a miss; the
emission on an absorbed scatter; emission + attenuation * recursive radiance
on a scatter, with the recursion at depth - 1. -/
def specRayColor {σ : Type} (world : World σ) (rng : σ) (r : Ray)
    (background : Color) (depth : ℤ) : Color × σ :=
  if _h : depth ≤ 0 then (Vec3.zero, rng)
  else
    match world rng r (F.fin (1/1000)) F.pinf with
    | (some rec, rng1) =>
      let emitted := rec.emitted rec.u rec.v rec.p
      match rec.scatter rng1 r with
      | (some res, rng2) =>
        let rest := specRayColor world rng2 res.scattered background (depth - 1)
        (emitted.add (res.attenuation.cmul rest.1), rest.2)
      | (none, rng2) => (emitted, rng2)
    | (none, rng1) => (background, rng1)
termination_by depth.toNat
decreasing_by omega

/-- Auxiliary induction for the equivalence of ray_color with the spec's
reference recursion, by strong induction on the clamped depth. -/
lemma rayColor_eq_spec_aux {σ : Type} (n : ℕ) :
    ∀ (world : World σ) (rng : σ) (r : Ray) (bg : Color) (depth peak : ℤ),
      depth.toNat ≤ n →
      (rayColor world rng r bg depth peak).1 = (specRayColor world rng r bg depth).1 ∧
      (rayColor world rng r bg depth peak).2.1 = (specRayColor world rng r bg depth).2 := by
  induction n with
  | zero =>
    intro world rng r bg depth peak hle
    have hd : depth ≤ 0 := by omega
    rw [rayColor, specRayColor]
    simp [hd]
  | succ n ih =>
    intro world rng r bg depth peak hle
    rw [rayColor, specRayColor]
    by_cases hd : depth ≤ 0
    · simp [hd]
    · simp only [hd, dite_false]
      rcases hw : world rng r (F.fin (1/1000)) F.pinf with ⟨orec, rng1⟩
      cases orec with
      | none => simp
      | some rec =>
        simp only []
        rcases hs : rec.scatter rng1 r with ⟨ores, rng2⟩
        cases ores with
        | none => simp
        | some res =>
          have hrec := ih world rng2 res.scattered bg (depth - 1) (peak + 1)
            (by omega)
          simp only []
          exact ⟨by rw [hrec.1], hrec.2⟩

/-- C2: ray_color equals the spec's reference recursive definition — for
every RNG state, ray, background, world and integer depth, the returned color
(and the RNG state it leaves behind) coincide with the reference recursion:
zero color at depth <= 0, background on a miss, emission on absorption, and
emission + attenuation * recursive radiance at depth - 1 on a scatter. -/
theorem ray_color_matches_spec {σ : Type} (world : World σ) (rng : σ) (r : Ray)
    (bg : Color) (depth peak : ℤ) :
    (rayColor world rng r bg depth peak).1 = (specRayColor world rng r bg depth).1 ∧
    (rayColor world rng r bg depth peak).2.1 = (specRayColor world rng r bg depth).2 :=
  rayColor_eq_spec_aux depth.toNat world rng r bg depth peak (le_refl _)

/-- A candidate hit parameter is outside the query window when root < t_min
or t_max < root (the rejection test in Sphere::hit_implementation, under IEEE
comparison semantics). -/
def outOfWindow (t : ℚ) (tmin tmax : F) : Bool :=
  F.flt (F.fin t) tmin || F.flt tmax (F.fin t)

/-- A candidate hit parameter lies within the query window [t_min, t_max]. -/
def inWindow (t : ℚ) (tmin tmax : F) : Bool :=
  !(F.flt (F.fin t) tmin) && !(F.flt tmax (F.fin t))

/-- Rejection and acceptance of a candidate parameter are complementary. -/
lemma outOfWindow_eq_not_inWindow (t : ℚ) (tmin tmax : F) :
    outOfWindow t tmin tmax = !(inWindow t tmin tmax) := by
  simp [outOfWindow, inWindow]

/-- The geometric fields of a HitRecord (src/object/hittable.rs):
hit parameter, hit point, stored normal and front-face flag.  The texture
coordinates u,v (computed by transcendental functions irrelevant to the
claims) and the material reference are omitted. -/
structure SphereRec where
  t : ℚ
  p : Vec3
  normal : Vec3
  frontFace : Bool
deriving DecidableEq, Repr

/-- HitRecord::set_face_normal (src/object/hittable.rs lines 20-27): flip the
outward normal to face against the ray, recording whether it was flipped. -/
def setFaceNormal (r : Ray) (outward : Vec3) : Vec3 × Bool :=
  let front := decide (Vec3.dot r.dir outward < 0)
  (if front then outward else outward.neg, front)

/-- Sphere::hit_implementation (src/object/sphere.rs lines 34-75) over exact
rationals.  The square root of the discriminant is supplied as the parameter
sqrtd; the theorems about this definition constrain it by sqrtd * sqrtd =
discriminant and 0 ≤ sqrtd, the defining properties of f64::sqrt on a
nonnegative argument. -/
def sphereHitImpl (center : Vec3) (radius : ℚ) (r : Ray) (tmin tmax : F)
    (sqrtd : ℚ) : Option SphereRec :=
  let oc := r.orig.sub center
  let a := r.dir.lengthSquared
  let halfB := Vec3.dot oc r.dir
  let c := oc.lengthSquared - radius * radius
  let discriminant := halfB * halfB - a * c
  if discriminant < 0 then none
  else
    let mkRec : ℚ → SphereRec := fun root =>
      let p := r.at root
      let outwardNormal := (p.sub center).sdiv radius
      let nf := setFaceNormal r outwardNormal
      ⟨root, p, nf.1, nf.2⟩
    let root1 := (-halfB - sqrtd) / a
    let root2 := (-halfB + sqrtd) / a
    if outOfWindow root1 tmin tmax then
      if outOfWindow root2 tmin tmax then none
      else some (mkRec root2)
    else some (mkRec root1)

/-- A vector has zero squared length exactly when it is the zero vector. -/
lemma lengthSquared_eq_zero {v : Vec3} :
    v.lengthSquared = 0 ↔ v = Vec3.zero := by
  constructor
  · intro h
    simp only [Vec3.lengthSquared] at h
    have hx : v.x = 0 := by
      nlinarith [mul_self_nonneg v.x, mul_self_nonneg v.y, mul_self_nonneg v.z]
    have hy : v.y = 0 := by
      nlinarith [mul_self_nonneg v.x, mul_self_nonneg v.y, mul_self_nonneg v.z]
    have hz : v.z = 0 := by
      nlinarith [mul_self_nonneg v.x, mul_self_nonneg v.y, mul_self_nonneg v.z]
    cases v
    simp_all [Vec3.zero]
  · intro h
    subst h
    simp [Vec3.lengthSquared, Vec3.zero]

/-- C9 (amended): every hit record produced by the sphere intersection test,
for a sphere of nonzero radius and a ray of nonzero direction, with an exact
square root of the discriminant, has its parameter t within the query window,
a unit-length stored normal, and a stored normal making a nonpositive dot
product with the ray direction. -/
theorem sphere_hit_record_invariants (center : Vec3) (radius : ℚ) (r : Ray)
    (tmin tmax : F) (sqrtd : ℚ) (rec : SphereRec)
    (hrad : radius ≠ 0) (hdir : r.dir ≠ Vec3.zero)
    (hs : sqrtd * sqrtd =
      Vec3.dot (r.orig.sub center) r.dir * Vec3.dot (r.orig.sub center) r.dir -
        r.dir.lengthSquared * ((r.orig.sub center).lengthSquared - radius * radius))
    (hhit : sphereHitImpl center radius r tmin tmax sqrtd = some rec) :
    inWindow rec.t tmin tmax = true ∧
    rec.normal.lengthSquared = 1 ∧
    Vec3.dot rec.normal r.dir ≤ 0 := by
  have ha : r.dir.lengthSquared ≠ 0 := fun h => hdir (lengthSquared_eq_zero.mp h)
  have hnn : (0 : ℚ) ≤ r.dir.lengthSquared := by
    have h1 := mul_self_nonneg r.dir.x
    have h2 := mul_self_nonneg r.dir.y
    have h3 := mul_self_nonneg r.dir.z
    simp only [Vec3.lengthSquared]
    linarith
  have hapos : 0 < r.dir.lengthSquared := lt_of_le_of_ne hnn (Ne.symm ha)
  -- name the intermediate quantities of the source computation
  set oc := r.orig.sub center with hoc
  set a := r.dir.lengthSquared with haeq
  set halfB := Vec3.dot oc r.dir with hhb
  set c := oc.lengthSquared - radius * radius with hceq
  unfold sphereHitImpl at hhit
  simp only [← hoc, ← haeq, ← hhb, ← hceq] at hhit
  by_cases hdisc : halfB * halfB - a * c < 0
  · simp [hdisc] at hhit
  · simp only [hdisc, if_false] at hhit
    -- the accepted root satisfies the quadratic a t^2 + 2 halfB t + c = 0
    have quad : ∀ root : ℚ,
        (root = (-halfB - sqrtd) / a ∨ root = (-halfB + sqrtd) / a) →
        a * (root * root) + 2 * halfB * root + c = 0 := by
      intro root hr
      rcases hr with hr | hr <;>
      · subst hr
        field_simp
        nlinarith [hs]
    have main : ∀ root : ℚ,
        (root = (-halfB - sqrtd) / a ∨ root = (-halfB + sqrtd) / a) →
        inWindow root tmin tmax = true →
        rec = ⟨root, r.at root, (setFaceNormal r (((r.at root).sub center).sdiv radius)).1,
               (setFaceNormal r (((r.at root).sub center).sdiv radius)).2⟩ →
        inWindow rec.t tmin tmax = true ∧
        rec.normal.lengthSquared = 1 ∧
        Vec3.dot rec.normal r.dir ≤ 0 := by
      intro root hroot hwin hrec
      subst hrec
      have hq := quad root hroot
      rw [haeq, hhb, hceq, hoc] at hq
      simp only [Vec3.dot, Vec3.lengthSquared, Vec3.sub] at hq
      have hlen : ((r.at root).sub center).lengthSquared = radius * radius := by
        simp only [Ray.at, Vec3.add, Vec3.smul, Vec3.sub, Vec3.lengthSquared]
        linear_combination hq
      set w := ((r.at root).sub center).sdiv radius with hwdef
      have hwlen : w.lengthSquared = 1 := by
        rw [hwdef]
        simp only [Vec3.lengthSquared] at hlen
        simp only [Vec3.sdiv, Vec3.lengthSquared]
        field_simp
        linear_combination hlen
      refine ⟨hwin, ?_, ?_⟩
      · simp only [setFaceNormal]
        by_cases hfront : Vec3.dot r.dir w < 0
        · rw [if_pos (by simp [hfront])]
          exact hwlen
        · rw [if_neg (by simp [hfront])]
          have hneg : w.neg.lengthSquared = w.lengthSquared := by
            simp only [Vec3.neg, Vec3.lengthSquared]
            ring
          rw [hneg]
          exact hwlen
      · simp only [setFaceNormal]
        by_cases hfront : Vec3.dot r.dir w < 0
        · rw [if_pos (by simp [hfront])]
          have hcomm : Vec3.dot w r.dir = Vec3.dot r.dir w := by
            simp only [Vec3.dot]
            ring
          rw [hcomm]
          linarith
        · rw [if_neg (by simp [hfront])]
          have hanti : Vec3.dot w.neg r.dir = -(Vec3.dot r.dir w) := by
            simp only [Vec3.dot, Vec3.neg]
            ring
          rw [hanti]
          push_neg at hfront
          linarith
    by_cases h1 : outOfWindow ((-halfB - sqrtd) / a) tmin tmax = true
    · by_cases h2 : outOfWindow ((-halfB + sqrtd) / a) tmin tmax = true
      · simp [h1, h2] at hhit
      · rw [if_pos h1, if_neg h2] at hhit
        simp only [Option.some.injEq] at hhit
        have hwin : inWindow ((-halfB + sqrtd) / a) tmin tmax = true := by
          have := outOfWindow_eq_not_inWindow ((-halfB + sqrtd) / a) tmin tmax
          simp only [Bool.not_eq_true] at h2
          rw [h2] at this
          simpa using this.symm
        exact main ((-halfB + sqrtd) / a) (Or.inr rfl) hwin hhit.symm
    · rw [if_neg h1] at hhit
      simp only [Option.some.injEq] at hhit
      have hwin : inWindow ((-halfB - sqrtd) / a) tmin tmax = true := by
        have := outOfWindow_eq_not_inWindow ((-halfB - sqrtd) / a) tmin tmax
        simp only [Bool.not_eq_true] at h1
        rw [h1] at this
        simpa using this.symm
      exact main ((-halfB - sqrtd) / a) (Or.inl rfl) hwin hhit.symm

/-- C9 counterexample: a sphere of radius 0 (constructible via Sphere::new)
hit head-on produces a hit record whose stored normal is not unit length — the
outward normal is (p - center)/radius with radius = 0, yielding the zero
vector in exact arithmetic (f64 yields NaN components, which are equally not
unit length).  The discriminant of this configuration is exactly 0, so
sqrtd = 0 is its exact square root and the record is genuinely produced. -/
theorem sphere_zero_radius_not_unit_normal :
    sphereHitImpl ⟨0, 0, 0⟩ 0 ⟨⟨-1, 0, 0⟩, ⟨1, 0, 0⟩, 0, false⟩
        (F.fin (1/1000)) (F.fin 10) 0 =
      some ⟨1, ⟨0, 0, 0⟩, ⟨0, 0, 0⟩, false⟩ ∧
    (0 : ℚ) * 0 =
      Vec3.dot (Ray.orig ⟨⟨-1, 0, 0⟩, ⟨1, 0, 0⟩, 0, false⟩ |>.sub ⟨0, 0, 0⟩)
          (Ray.dir ⟨⟨-1, 0, 0⟩, ⟨1, 0, 0⟩, 0, false⟩) *
        Vec3.dot (Ray.orig ⟨⟨-1, 0, 0⟩, ⟨1, 0, 0⟩, 0, false⟩ |>.sub ⟨0, 0, 0⟩)
          (Ray.dir ⟨⟨-1, 0, 0⟩, ⟨1, 0, 0⟩, 0, false⟩) -
        (Ray.dir ⟨⟨-1, 0, 0⟩, ⟨1, 0, 0⟩, 0, false⟩).lengthSquared *
          ((Ray.orig ⟨⟨-1, 0, 0⟩, ⟨1, 0, 0⟩, 0, false⟩ |>.sub ⟨0, 0, 0⟩).lengthSquared -
            (0 : ℚ) * 0) ∧
    (Vec3.lengthSquared ⟨0, 0, 0⟩ ≠ 1) := by
  refine ⟨?_, ?_, ?_⟩
  · norm_num [sphereHitImpl, outOfWindow, setFaceNormal, F.flt, Vec3.dot,
      Vec3.sub, Vec3.add, Vec3.smul, Vec3.sdiv, Vec3.neg, Vec3.lengthSquared,
      Ray.at]
  · norm_num [Vec3.dot, Vec3.sub, Vec3.lengthSquared]
  · norm_num [Vec3.lengthSquared]

/-- Witness for C9 at a concrete unit sphere hit head-on from (-2,0,0). -/
theorem sphere_hit_record_invariants_witness :
    sphereHitImpl ⟨0, 0, 0⟩ 1 ⟨⟨-2, 0, 0⟩, ⟨1, 0, 0⟩, 0, false⟩
        (F.fin (1/1000)) F.pinf 1 =
      some ⟨1, ⟨-1, 0, 0⟩, ⟨-1, 0, 0⟩, true⟩ ∧
    inWindow (1 : ℚ) (F.fin (1/1000)) F.pinf = true ∧
    Vec3.lengthSquared ⟨-1, 0, 0⟩ = 1 ∧
    Vec3.dot ⟨-1, 0, 0⟩ (Ray.dir ⟨⟨-2, 0, 0⟩, ⟨1, 0, 0⟩, 0, false⟩) ≤ 0 := by
  have hhit : sphereHitImpl ⟨0, 0, 0⟩ 1 ⟨⟨-2, 0, 0⟩, ⟨1, 0, 0⟩, 0, false⟩
      (F.fin (1/1000)) F.pinf 1 = some ⟨1, ⟨-1, 0, 0⟩, ⟨-1, 0, 0⟩, true⟩ := by
    norm_num [sphereHitImpl, outOfWindow, setFaceNormal, F.flt, Vec3.dot,
      Vec3.sub, Vec3.add, Vec3.smul, Vec3.sdiv, Vec3.neg, Vec3.lengthSquared,
      Ray.at]
  have hinv := sphere_hit_record_invariants ⟨0, 0, 0⟩ 1
      ⟨⟨-2, 0, 0⟩, ⟨1, 0, 0⟩, 0, false⟩ (F.fin (1/1000)) F.pinf 1
      ⟨1, ⟨-1, 0, 0⟩, ⟨-1, 0, 0⟩, true⟩
      (by norm_num)
      (by simp [Vec3.zero])
      (by norm_num [Vec3.dot, Vec3.sub, Vec3.lengthSquared])
      hhit
  exact ⟨hhit, hinv.1, hinv.2.1, hinv.2.2⟩

/-- A deterministic model of an RNG handed to the camera: a stream of unit
samples (each f64 drawn by rand's gen is a number in [0,1)) and a cursor. -/
structure DRng where
  stream : ℕ → ℚ
  pos : ℕ

/-- The contract of rand's f64 sampling: every drawn sample is in [0,1). -/
def DRng.SubUnit (g : DRng) : Prop := ∀ n, 0 ≤ g.stream n ∧ g.stream n < 1

/-- Rng::gen_range(lo..hi) for f64: uniform in the half-open range [lo, hi),
modelled as lo + u * (hi - lo) for a unit sample u.  rand panics when the
range is empty (hi <= lo); the panic is modelled as none. -/
def DRng.genRange (g : DRng) (lo hi : ℚ) : Option (ℚ × DRng) :=
  if lo < hi then some (lo + g.stream g.pos * (hi - lo), ⟨g.stream, g.pos + 1⟩)
  else none

/-- The candidate point of attempt k of Vec3::random_in_unit_disk's rejection
loop: two draws from gen_range(-1.0..1.0), consuming two samples per attempt. -/
def diskCandidate (g : DRng) (k : ℕ) : ℚ × ℚ :=
  (-1 + g.stream (g.pos + 2 * k) * 2, -1 + g.stream (g.pos + 2 * k + 1) * 2)

/-- Attempt k of the rejection loop lands strictly inside the unit disk. -/
def landsInDisk (g : DRng) (k : ℕ) : Prop :=
  (diskCandidate g k).1 * (diskCandidate g k).1 +
    (diskCandidate g k).2 * (diskCandidate g k).2 < 1

instance (g : DRng) : DecidablePred (landsInDisk g) := by
  intro k
  unfold landsInDisk
  infer_instance

/-- Vec3::random_in_unit_disk (src/lib/vec.rs lines 111-119): rejection-sample
points of [-1,1)^2 until one lands inside the unit disk.  The loop terminates
exactly when some attempt lands inside; that assumption is taken as an
argument (an adversarial stream never landing inside makes the source loop
forever, so the model is only defined under it). -/
def randomInUnitDisk (g : DRng) (h : ∃ k, landsInDisk g k) : Vec3 × DRng :=
  let k := Nat.find h
  let c := diskCandidate g k
  (⟨c.1, c.2, 0⟩, ⟨g.stream, g.pos + 2 * (k + 1)⟩)

/-- Camera from src/scene/camera.rs: the precomputed basis of Camera::new. -/
structure Camera where
  origin : Vec3
  lowerLeftCorner : Vec3
  horizontal : Vec3
  vertical : Vec3
  u : Vec3
  v : Vec3
  lensRadius : ℚ
  time0 : ℚ
  time1 : ℚ

/-- Camera::get_ray (src/scene/camera.rs lines 66-74): sample the lens disk,
offset the origin, aim at the image-plane point for (s,t), and draw the ray
time from gen_range(time0..time1) — which panics (none) when time0 >= time1. -/
def Camera.getRay (cam : Camera) (g : DRng) (s t : ℚ)
    (h : ∃ k, landsInDisk g k) : Option (Ray × DRng) :=
  let rd0 := randomInUnitDisk g h
  let rd := Vec3.smul cam.lensRadius rd0.1
  let offset := (Vec3.smul rd.x cam.u).add (Vec3.smul rd.y cam.v)
  match rd0.2.genRange cam.time0 cam.time1 with
  | some (tm, g2) =>
    some (⟨cam.origin.add offset,
           ((((cam.lowerLeftCorner.add (Vec3.smul s cam.horizontal)).add
               (Vec3.smul t cam.vertical)).sub cam.origin).sub offset),
           tm, false⟩, g2)
  | none => none

/-- C8 (amended): for every camera with shutter_open < shutter_close, every
unit-sample RNG whose disk rejection sampling terminates, and every (s,t),
get_ray returns a ray, and the ray's time lies in the HALF-OPEN interval
[shutter_open, shutter_close) — gen_range samples lo..hi, never attaining hi. -/
theorem camera_get_ray_returns_ray_in_shutter (cam : Camera) (g : DRng)
    (s t : ℚ) (hsub : g.SubUnit) (hopen : cam.time0 < cam.time1)
    (h : ∃ k, landsInDisk g k) :
    ∃ ray g2, cam.getRay g s t h = some (ray, g2) ∧
      cam.time0 ≤ ray.tm ∧ ray.tm < cam.time1 := by
  unfold Camera.getRay randomInUnitDisk
  simp only [DRng.genRange]
  rw [if_pos hopen]
  refine ⟨_, _, rfl, ?_, ?_⟩ <;>
  · obtain ⟨h0, h1⟩ := hsub (g.pos + 2 * (Nat.find h + 1))
    dsimp only
    nlinarith

/-- The constant half stream, whose first rejection-sampling attempt lands at
the disk center. -/
def halfRng : DRng := ⟨fun _ => 1/2, 0⟩

/-- The first disk attempt of the constant half stream lands inside. -/
lemma halfRng_lands : ∃ k, landsInDisk halfRng k := by
  refine ⟨0, ?_⟩
  norm_num [landsInDisk, diskCandidate, halfRng]

/-- A camera whose shutter interval is empty (time0 = time1 = 0), as
Camera::new freely constructs. -/
def emptyShutterCam : Camera :=
  ⟨Vec3.zero, Vec3.zero, Vec3.zero, Vec3.zero, Vec3.zero, Vec3.zero, 0, 0, 0⟩

/-- C8 counterexample: Camera::get_ray DOES have a failure mode — for a
camera whose shutter interval is empty (shutter_open = shutter_close, a
configuration Camera::new accepts), rand's gen_range(time0..time1) panics on
the empty range, modelled as none: no ray is returned. -/
theorem camera_get_ray_empty_shutter_fails :
    Camera.getRay emptyShutterCam halfRng 0 0 halfRng_lands = none := by
  unfold Camera.getRay
  simp only [DRng.genRange]
  rw [if_neg (by norm_num [emptyShutterCam])]

/-- Witness for C8 at a concrete camera with shutter interval [0,1). -/
theorem camera_get_ray_returns_ray_in_shutter_witness :
    (DRng.SubUnit halfRng ∧
      Camera.time0 ⟨Vec3.zero, Vec3.zero, Vec3.zero, Vec3.zero, Vec3.zero,
        Vec3.zero, 0, 0, 1⟩ <
      Camera.time1 ⟨Vec3.zero, Vec3.zero, Vec3.zero, Vec3.zero, Vec3.zero,
        Vec3.zero, 0, 0, 1⟩) ∧
    (∃ ray g2,
      Camera.getRay ⟨Vec3.zero, Vec3.zero, Vec3.zero, Vec3.zero, Vec3.zero,
          Vec3.zero, 0, 0, 1⟩ halfRng 0 0 halfRng_lands = some (ray, g2) ∧
      (0 : ℚ) ≤ ray.tm ∧ ray.tm < 1) := by
  have hsub : DRng.SubUnit halfRng := by
    intro n
    constructor <;> norm_num [halfRng]
  have hopen : (0 : ℚ) < 1 := by norm_num
  exact ⟨⟨hsub, hopen⟩,
    camera_get_ray_returns_ray_in_shutter _ halfRng 0 0 hsub hopen halfRng_lands⟩

/-- A primitive as the BVH builder sees it: only its bounding_box capability
matters to construction (src/scene/bvh.rs uses bounding_box(0,0) for sorting
and bounding_box(time0,time1) for the node box; the model's single optional
box stands for both, geometry being time-independent for the claims). -/
structure BPrim where
  box : Option Aabb
deriving DecidableEq

/-- BvhConstructionError (src/scene/bvh.rs lines 28-31). -/
inductive BvhConstructionError where
  | noBoundingBox : BvhConstructionError
deriving DecidableEq, Repr

/-- The tree of Hittables a BVH build produces: children are primitives or
further nodes; each node caches its Aabb. -/
inductive BTree where
  | leaf (p : BPrim) : BTree
  | node (l r : BTree) (bbox : Aabb) : BTree
deriving DecidableEq

/-- Hittable::bounding_box on a build-tree child: a primitive reports its own
(optional) box; BvhNode::bounding_box always reports the cached box. -/
def BTree.boundingBox : BTree → Option Aabb
  | .leaf p => p.box
  | .node _ _ b => some b

/-- The sort key box_compare uses on the chosen axis: the minimum coordinate
of the primitive's bounding box (the value is irrelevant for boxless
primitives, which abort the build before the sorted order is consumed). -/
def sortKey (axis : ℕ) (p : BPrim) : ℚ :=
  (p.box.map (fun b => b.minimum.nth axis)).getD 0

/-- BvhNode::new (src/scene/bvh.rs lines 68-118) with an explicit recursion
budget: none models non-termination (fuel exhausted), some (error e) the Err
return, some (ok ..) the Ok return.  The randomized axis choice is modelled
by an arbitrary stream axisOf consulted at an advancing counter.  The sort's
errored flag is modelled as: some primitive in the list has no bounding box —
merge sort compares every element of a list of length >= 2 at least once, so
the comparator errors exactly when such a primitive exists (and the empty
list performs no comparison, matching the flag staying false). -/
def buildFuel (axisOf : ℕ → ℕ) : ℕ → ℕ → List BPrim →
    Option (Except BvhConstructionError (BTree × ℕ))
  | 0, _, _ => none
  | _ + 1, ctr, [p] =>
    match p.box with
    | some b =>
      some (.ok (.node (.leaf p) (.leaf p) (Aabb.surroundingBox b b), ctr))
    | none => some (.error .noBoundingBox)
  | _ + 1, ctr, [p, q] =>
    match p.box, q.box with
    | some bp, some bq =>
      some (.ok (.node (.leaf p) (.leaf q) (Aabb.surroundingBox bp bq), ctr))
    | _, _ => some (.error .noBoundingBox)
  | fuel + 1, ctr, ps =>
    if ps.any (fun p => p.box.isNone) then some (.error .noBoundingBox)
    else
      let axis := axisOf ctr
      let sorted := ps.mergeSort (fun a b => decide (sortKey axis a ≤ sortKey axis b))
      let mid := ps.length / 2
      match buildFuel axisOf fuel (ctr + 1) (sorted.take mid) with
      | none => none
      | some (.error e) => some (.error e)
      | some (.ok (l, ctr1)) =>
        match buildFuel axisOf fuel ctr1 (sorted.drop mid) with
        | none => none
        | some (.error e) => some (.error e)
        | some (.ok (rt, ctr2)) =>
          match l.boundingBox, rt.boundingBox with
          | some bl, some br =>
            some (.ok (.node l rt (Aabb.surroundingBox bl br), ctr2))
          | _, _ => some (.error .noBoundingBox)

/-- A build on the empty list never returns, whatever the budget: the general
branch recurses on two empty halves forever. -/
lemma buildFuel_nil (axisOf : ℕ → ℕ) :
    ∀ fuel ctr, buildFuel axisOf fuel ctr [] = none := by
  intro fuel
  induction fuel with
  | zero => intro ctr; rfl
  | succ fuel ih =>
    intro ctr
    show buildFuel axisOf (fuel + 1) ctr [] = none
    unfold buildFuel
    simp [ih]

/-- A build on a list of primitives that all have bounding boxes, with budget
at least the list length, returns Ok with a node. -/
lemma buildFuel_ok_of_boxes (axisOf : ℕ → ℕ) :
    ∀ fuel ps ctr, ps ≠ [] → ps.length ≤ fuel →
      (∀ p ∈ ps, p.box.isSome) →
      ∃ l r b ctr2, buildFuel axisOf fuel ctr ps =
        some (.ok (BTree.node l r b, ctr2)) := by
  intro fuel
  induction fuel with
  | zero =>
    intro ps ctr hne hlen _
    exact absurd (Nat.le_zero.mp hlen) (by simpa using hne)
  | succ fuel ih =>
    intro ps ctr hne hlen hbox
    match ps with
    | [] => exact absurd rfl hne
    | [p] =>
      obtain ⟨b, hb⟩ := Option.isSome_iff_exists.mp (hbox p (by simp))
      exact ⟨_, _, _, _, by rw [show buildFuel axisOf (fuel + 1) ctr [p] =
        (match p.box with
         | some b => some (.ok (.node (.leaf p) (.leaf p) (Aabb.surroundingBox b b), ctr))
         | none => some (.error .noBoundingBox)) from rfl, hb]⟩
    | [p, q] =>
      obtain ⟨bp, hbp⟩ := Option.isSome_iff_exists.mp (hbox p (by simp))
      obtain ⟨bq, hbq⟩ := Option.isSome_iff_exists.mp (hbox q (by simp))
      exact ⟨_, _, _, _, by rw [show buildFuel axisOf (fuel + 1) ctr [p, q] =
        (match p.box, q.box with
         | some bp, some bq =>
           some (.ok (.node (.leaf p) (.leaf q) (Aabb.surroundingBox bp bq), ctr))
         | _, _ => some (.error .noBoundingBox)) from rfl, hbp, hbq]⟩
    | p0 :: p1 :: p2 :: rest =>
      set ps := p0 :: p1 :: p2 :: rest with hps
      have hany : ps.any (fun p => p.box.isNone) = false := by
        rw [List.any_eq_false]
        intro p hp
        simpa [Option.isSome_iff_ne_none] using hbox p hp
      set axis := axisOf ctr with haxis
      set sorted := ps.mergeSort (fun a b => decide (sortKey axis a ≤ sortKey axis b))
        with hsorted
      have hperm : sorted.Perm ps := List.mergeSort_perm ps _
      have hslen : sorted.length = ps.length := hperm.length_eq
      have hlen3 : 3 ≤ ps.length := by
        rw [hps]
        simp only [List.length_cons]
        omega
      set mid := ps.length / 2 with hmid
      have hmid1 : 1 ≤ mid := by omega
      have hmidlt : mid < ps.length := by omega
      have htake_len : (sorted.take mid).length = mid := by
        rw [List.length_take, hslen]; omega
      have hdrop_len : (sorted.drop mid).length = ps.length - mid := by
        rw [List.length_drop, hslen]
      have hmem_take : ∀ p ∈ sorted.take mid, p ∈ ps := fun p hp =>
        hperm.mem_iff.mp (List.mem_of_mem_take hp)
      have hmem_drop : ∀ p ∈ sorted.drop mid, p ∈ ps := fun p hp =>
        hperm.mem_iff.mp (List.mem_of_mem_drop hp)
      obtain ⟨l1, r1, b1, c1, hbuild1⟩ := ih (sorted.take mid) (ctr + 1)
        (by rw [← List.length_pos_iff_ne_nil, htake_len]; omega)
        (by rw [htake_len]; omega)
        (fun p hp => hbox p (hmem_take p hp))
      obtain ⟨l2, r2, b2, c2, hbuild2⟩ := ih (sorted.drop mid) c1
        (by rw [← List.length_pos_iff_ne_nil, hdrop_len]; omega)
        (by rw [hdrop_len]; omega)
        (fun p hp => hbox p (hmem_drop p hp))
      refine ⟨BTree.node l1 r1 b1, BTree.node l2 r2 b2,
        Aabb.surroundingBox b1 b2, c2, ?_⟩
      rw [show buildFuel axisOf (fuel + 1) ctr ps =
        (if ps.any (fun p => p.box.isNone) then some (.error .noBoundingBox)
         else
           match buildFuel axisOf fuel (ctr + 1) (sorted.take mid) with
           | none => none
           | some (.error e) => some (.error e)
           | some (.ok (l, ctr1)) =>
             match buildFuel axisOf fuel ctr1 (sorted.drop mid) with
             | none => none
             | some (.error e) => some (.error e)
             | some (.ok (rt, ctr2)) =>
               match l.boundingBox, rt.boundingBox with
               | some bl, some br =>
                 some (.ok (.node l rt (Aabb.surroundingBox bl br), ctr2))
               | _, _ => some (.error .noBoundingBox)) from by rw [hps]; rfl]
      rw [if_neg (by rw [hany]; simp)]
      simp only [hbuild1, hbuild2, BTree.boundingBox]

/-- A build on a non-empty list containing a boxless primitive, with budget at
least the list length, aborts with the single error NoBoundingBox. -/
lemma buildFuel_err_of_missing (axisOf : ℕ → ℕ) :
    ∀ fuel ps ctr, ps ≠ [] → ps.length ≤ fuel →
      (∃ p ∈ ps, p.box = none) →
      buildFuel axisOf fuel ctr ps = some (.error .noBoundingBox) := by
  intro fuel ps ctr hne hlen hmiss
  match fuel, hlen with
  | 0, hlen =>
    exact absurd (List.length_eq_zero.mp (Nat.le_zero.mp hlen)) hne
  | fuel + 1, hlen =>
  match ps with
  | [] => exact absurd rfl hne
  | [p] =>
    obtain ⟨q, hq, hqnone⟩ := hmiss
    simp only [List.mem_singleton] at hq
    subst hq
    rw [show buildFuel axisOf (fuel + 1) ctr [q] =
      (match q.box with
       | some b => some (.ok (.node (.leaf q) (.leaf q) (Aabb.surroundingBox b b), ctr))
       | none => some (.error .noBoundingBox)) from rfl, hqnone]
  | [p, q] =>
    rw [show buildFuel axisOf (fuel + 1) ctr [p, q] =
      (match p.box, q.box with
       | some bp, some bq =>
         some (.ok (.node (.leaf p) (.leaf q) (Aabb.surroundingBox bp bq), ctr))
       | _, _ => some (.error .noBoundingBox)) from rfl]
    obtain ⟨w, hw, hwnone⟩ := hmiss
    rcases List.mem_pair.mp hw with h | h <;> subst h
    · cases hq : q.box <;> simp [hwnone, hq]
    · cases hp : p.box <;> simp [hwnone, hp]
  | p0 :: p1 :: p2 :: rest =>
    have hany : (p0 :: p1 :: p2 :: rest).any (fun p => p.box.isNone) = true := by
      rw [List.any_eq_true]
      obtain ⟨w, hw, hwnone⟩ := hmiss
      exact ⟨w, hw, by simp [hwnone]⟩
    rw [show buildFuel axisOf (fuel + 1) ctr (p0 :: p1 :: p2 :: rest) =
      (if (p0 :: p1 :: p2 :: rest).any (fun p => p.box.isNone) then
         some (.error .noBoundingBox)
       else
         let axis := axisOf ctr
         let sorted := (p0 :: p1 :: p2 :: rest).mergeSort
           (fun a b => decide (sortKey axis a ≤ sortKey axis b))
         let mid := (p0 :: p1 :: p2 :: rest).length / 2
         match buildFuel axisOf fuel (ctr + 1) (sorted.take mid) with
         | none => none
         | some (.error e) => some (.error e)
         | some (.ok (l, ctr1)) =>
           match buildFuel axisOf fuel ctr1 (sorted.drop mid) with
           | none => none
           | some (.error e) => some (.error e)
           | some (.ok (rt, ctr2)) =>
             match l.boundingBox, rt.boundingBox with
             | some bl, some br =>
               some (.ok (.node l rt (Aabb.surroundingBox bl br), ctr2))
             | _, _ => some (.error .noBoundingBox)) from rfl]
    rw [if_pos (by rw [hany])]

/-- C7: on every non-empty primitive list (with recursion budget covering the
list, cf. C10), the build returns Err(NoBoundingBox) exactly when some
primitive in the list reports no bounding box — the error propagates up and
aborts the whole build — and otherwise returns Ok with a node;
NoBoundingBox is the only constructor of the error type, so it is the only
error a caller must handle. -/
theorem bvh_build_error_iff_missing_box (axisOf : ℕ → ℕ) (fuel ctr : ℕ)
    (ps : List BPrim) (hne : ps ≠ []) (hlen : ps.length ≤ fuel) :
    (buildFuel axisOf fuel ctr ps = some (.error .noBoundingBox) ↔
      ∃ p ∈ ps, p.box = none) ∧
    ((∀ p ∈ ps, p.box ≠ none) →
      ∃ l r b ctr2, buildFuel axisOf fuel ctr ps =
        some (.ok (BTree.node l r b, ctr2))) := by
  constructor
  · constructor
    · intro herr
      by_contra hmiss
      push_neg at hmiss
      obtain ⟨l, r, b, c2, hok⟩ := buildFuel_ok_of_boxes axisOf fuel ps ctr hne hlen
        (fun p hp => Option.isSome_iff_ne_none.mpr (hmiss p hp))
      rw [hok] at herr
      exact absurd herr (by simp)
    · exact buildFuel_err_of_missing axisOf fuel ps ctr hne hlen
  · intro hall
    exact buildFuel_ok_of_boxes axisOf fuel ps ctr hne hlen
      (fun p hp => Option.isSome_iff_ne_none.mpr (hall p hp))

/-- C10: the build terminates exactly on non-empty input — the empty list
exhausts any recursion budget (the midpoint split recurses on two empty
sublists forever), while a non-empty list of length n returns some result
(Ok or Err) within budget n, lists of length 1 or 2 without recursing. -/
theorem bvh_build_terminates_iff_nonempty (axisOf : ℕ → ℕ) (fuel ctr : ℕ)
    (ps : List BPrim) :
    (ps = [] → buildFuel axisOf fuel ctr ps = none) ∧
    (ps ≠ [] → ps.length ≤ fuel →
      (buildFuel axisOf fuel ctr ps).isSome = true) := by
  constructor
  · intro h
    subst h
    exact buildFuel_nil axisOf fuel ctr
  · intro hne hlen
    by_cases hmiss : ∃ p ∈ ps, p.box = none
    · rw [buildFuel_err_of_missing axisOf fuel ps ctr hne hlen hmiss]
      rfl
    · push_neg at hmiss
      obtain ⟨l, r, b, c2, hok⟩ := buildFuel_ok_of_boxes axisOf fuel ps ctr hne hlen
        (fun p hp => Option.isSome_iff_ne_none.mpr (hmiss p hp))
      rw [hok]
      rfl

/-- Witness for C7: a two-element list with a boxless primitive errors, and
the same list with boxes succeeds. -/
theorem bvh_build_error_iff_missing_box_witness :
    ([(⟨none⟩ : BPrim), ⟨some exampleBox⟩] ≠ [] ∧
      ([(⟨none⟩ : BPrim), ⟨some exampleBox⟩] : List BPrim).length ≤ 2) ∧
    buildFuel (fun _ => 0) 2 0 [⟨none⟩, ⟨some exampleBox⟩] =
      some (.error .noBoundingBox) := by
  refine ⟨⟨by simp, by simp⟩, ?_⟩
  exact (bvh_build_error_iff_missing_box (fun _ => 0) 2 0
      [⟨none⟩, ⟨some exampleBox⟩] (by simp) (by simp)).1.mpr
    ⟨⟨none⟩, by simp, rfl⟩

/-- Witness for C10: the empty list diverges at budget 5 while a singleton
terminates at budget 1. -/
theorem bvh_build_terminates_iff_nonempty_witness :
    buildFuel (fun _ => 0) 5 0 [] = none ∧
    (buildFuel (fun _ => 0) 1 0 [(⟨some exampleBox⟩ : BPrim)]).isSome = true := by
  constructor
  · exact (bvh_build_terminates_iff_nonempty (fun _ => 0) 5 0 []).1 rfl
  · exact (bvh_build_terminates_iff_nonempty (fun _ => 0) 1 0
      [⟨some exampleBox⟩]).2 (by simp) (by simp)

/-- Order facts about the extended comparisons, needed to track the slab
loop's interval bookkeeping.  All lemmas are stated on the Bool-valued IEEE
comparisons; nan is handled explicitly where it can occur. -/
lemma fle_refl {x : F} (hx : x ≠ F.nan) : F.fle x x = true := by
  cases x <;> simp_all [F.fle]

/-- Strict implies non-strict. -/
lemma fle_of_flt {x y : F} (h : F.flt x y = true) : F.fle x y = true := by
  cases x <;> cases y <;> simp_all [F.flt, F.fle] <;> linarith

/-- Comparisons never hold against nan (left). -/
lemma flt_ne_nan_left {x y : F} (h : F.flt x y = true) : x ≠ F.nan := by
  cases x <;> simp_all [F.flt]

/-- Comparisons never hold against nan (right). -/
lemma flt_ne_nan_right {x y : F} (h : F.flt x y = true) : y ≠ F.nan := by
  cases x <;> cases y <;> simp_all [F.flt]

/-- Transitivity of the non-strict comparison. -/
lemma fle_trans {x y z : F} (h1 : F.fle x y = true) (h2 : F.fle y z = true) :
    F.fle x z = true := by
  cases x <;> cases y <;> cases z <;> simp_all [F.fle] <;> linarith

/-- Totality on non-nan values: a failed strict comparison flips. -/
lemma fle_of_not_flt {x y : F} (hx : x ≠ F.nan) (hy : y ≠ F.nan)
    (h : F.flt x y = false) : F.fle y x = true := by
  cases x <;> cases y <;> simp_all [F.flt, F.fle] <;> linarith

/-- Antisymmetry on non-nan values: two failed strict comparisons force
equality. -/
lemma feq_of_not_flt {x y : F} (hx : x ≠ F.nan) (hy : y ≠ F.nan)
    (h1 : F.flt x y = false) (h2 : F.flt y x = false) : x = y := by
  cases x <;> cases y <;> simp_all [F.flt] <;> linarith

/-- A non-strict and a reversed strict comparison are incompatible. -/
lemma not_flt_of_fle {x y : F} (h : F.fle x y = true) : F.flt y x = false := by
  cases x <;> cases y <;> simp_all [F.fle, F.flt] <;> linarith

/-- The minimum of a list of rationals, as an Option. -/
def listMin : List ℚ → Option ℚ
  | [] => none
  | a :: l =>
    match listMin l with
    | none => some a
    | some b => some (min a b)

/-- Merge of two optional minima. -/
def omin : Option ℚ → Option ℚ → Option ℚ
  | none, b => b
  | some a, none => some a
  | some a, some b => some (min a b)

/-- The minimum of a list is none exactly for the empty list. -/
lemma listMin_none_iff {l : List ℚ} : listMin l = none ↔ l = [] := by
  cases l with
  | nil => simp [listMin]
  | cons a l =>
    simp only [listMin]
    rcases listMin l with _ | b <;> simp

/-- The minimum of a list is one of its elements. -/
lemma listMin_mem : ∀ {l : List ℚ} {m : ℚ}, listMin l = some m → m ∈ l := by
  intro l
  induction l with
  | nil => intro m h; simp [listMin] at h
  | cons a l ih =>
    intro m h
    rw [listMin] at h
    rcases hl : listMin l with _ | b <;> rw [hl] at h <;>
      simp only [Option.some.injEq] at h
    · simp [← h]
    · rcases min_choice a b with hm | hm <;> rw [← h, hm]
      · simp
      · exact List.mem_cons_of_mem a (ih hl)

/-- The minimum of a list bounds every element. -/
lemma listMin_le : ∀ {l : List ℚ} {m : ℚ}, listMin l = some m →
    ∀ x ∈ l, m ≤ x := by
  intro l
  induction l with
  | nil => intro m h; simp [listMin] at h
  | cons a l ih =>
    intro m h x hx
    rw [listMin] at h
    rcases hl : listMin l with _ | b <;> rw [hl] at h <;>
      simp only [Option.some.injEq] at h
    · rcases List.mem_cons.mp hx with hxa | hxl
      · subst hxa; rw [← h]
      · rw [listMin_none_iff] at hl
        subst hl
        simp at hxl
    · rcases List.mem_cons.mp hx with hxa | hxl
      · subst hxa; rw [← h]; exact min_le_left _ _
      · exact le_trans (by rw [← h]; exact min_le_right _ _) (ih hl x hxl)

/-- Every member forces the minimum to exist and to bound it. -/
lemma listMin_isSome_of_mem {l : List ℚ} {x : ℚ} (hx : x ∈ l) :
    ∃ m, listMin l = some m ∧ m ≤ x := by
  rcases h : listMin l with _ | m
  · rw [listMin_none_iff] at h
    subst h
    simp at hx
  · exact ⟨m, rfl, listMin_le h x hx⟩

/-- The minimum of an append is the merge of the minima. -/
lemma listMin_append (l1 l2 : List ℚ) :
    listMin (l1 ++ l2) = omin (listMin l1) (listMin l2) := by
  induction l1 with
  | nil =>
    simp only [List.nil_append, listMin]
    rcases listMin l2 with _ | b <;> rfl
  | cons a l1 ih =>
    have hstep : listMin ((a :: l1) ++ l2) =
        (match listMin (l1 ++ l2) with
         | none => some a
         | some b => some (min a b)) := rfl
    rcases h1 : listMin l1 with _ | b1 <;> rcases h2 : listMin l2 with _ | b2 <;>
      simp [hstep, ih, h1, h2, omin, listMin, min_assoc]

/-- A membership-extensional characterization: the minimum only depends on
which rationals occur in the list. -/
lemma listMin_ext {l1 l2 : List ℚ} (h : ∀ x, x ∈ l1 ↔ x ∈ l2) :
    listMin l1 = listMin l2 := by
  rcases h1 : listMin l1 with _ | m1 <;> rcases h2 : listMin l2 with _ | m2
  · rfl
  · rw [listMin_none_iff] at h1
    subst h1
    have := (h m2).mpr (listMin_mem h2)
    simp at this
  · rw [listMin_none_iff] at h2
    subst h2
    have := (h m1).mp (listMin_mem h1)
    simp at this
  · have hm1 : m1 ∈ l2 := (h m1).mp (listMin_mem h1)
    have hm2 : m2 ∈ l1 := (h m2).mpr (listMin_mem h2)
    rw [le_antisymm (listMin_le h1 m2 hm2) (listMin_le h2 m1 hm1)]

/-- A minimum characterization: an element bounding the whole list is the
minimum. -/
lemma listMin_eq_some {l : List ℚ} {m : ℚ} (hm : m ∈ l)
    (hle : ∀ x ∈ l, m ≤ x) : listMin l = some m := by
  obtain ⟨m2, h2, hle2⟩ := listMin_isSome_of_mem hm
  rw [h2, le_antisymm hle2 (hle m2 (listMin_mem h2))]

/-- The nearest candidate hit parameter within the window [tmin, tmax]: the
minimum of the window-filtered candidate list.  This is the observable
behaviour of a primitive intersection test on the hit parameter:
Sphere::hit_implementation checks its two roots in increasing order and
returns the first one inside the closed window (windowChoice_eq_bestHit). -/
def bestHit (cands : List ℚ) (tmin tmax : F) : Option ℚ :=
  listMin (cands.filter (fun t => inWindow t tmin tmax))

/-- The root selection of Sphere::hit_implementation coincides with bestHit on
its two roots taken in increasing order (the source's roots satisfy
root1 <= root2 since a > 0 and sqrtd >= 0). -/
lemma windowChoice_eq_bestHit (r1 r2 : ℚ) (h : r1 ≤ r2) (tmin tmax : F) :
    (if outOfWindow r1 tmin tmax then
       if outOfWindow r2 tmin tmax then none else some r2
     else some r1) = bestHit [r1, r2] tmin tmax := by
  rw [outOfWindow_eq_not_inWindow, outOfWindow_eq_not_inWindow]
  by_cases h1 : inWindow r1 tmin tmax = true <;>
    by_cases h2 : inWindow r2 tmin tmax = true <;>
    simp [bestHit, h1, h2, List.filter, listMin, min_eq_left h,
      Bool.not_eq_true] <;>
    simp_all

/-- Unpack a produced best hit: it is a candidate inside the window. -/
lemma mem_of_bestHit {cands : List ℚ} {tmin tmax : F} {m : ℚ}
    (h : bestHit cands tmin tmax = some m) :
    m ∈ cands ∧ inWindow m tmin tmax = true := by
  have hm := listMin_mem h
  exact ⟨(List.mem_filter.mp hm).1, (List.mem_filter.mp hm).2⟩

/-- A produced best hit bounds every windowed candidate. -/
lemma bestHit_le {cands : List ℚ} {tmin tmax : F} {m : ℚ}
    (h : bestHit cands tmin tmax = some m) :
    ∀ x ∈ cands, inWindow x tmin tmax = true → m ≤ x := fun x hx hw =>
  listMin_le h x (List.mem_filter.mpr ⟨hx, hw⟩)

/-- A windowed candidate forces a best hit bounding it. -/
lemma bestHit_isSome_of_mem {cands : List ℚ} {tmin tmax : F} {x : ℚ}
    (hx : x ∈ cands) (hw : inWindow x tmin tmax = true) :
    ∃ m, bestHit cands tmin tmax = some m ∧ m ≤ x :=
  listMin_isSome_of_mem (List.mem_filter.mpr ⟨hx, hw⟩)

/-- Best hits over an append merge as minima. -/
lemma bestHit_append (l1 l2 : List ℚ) (tmin tmax : F) :
    bestHit (l1 ++ l2) tmin tmax =
      omin (bestHit l1 tmin tmax) (bestHit l2 tmin tmax) := by
  unfold bestHit
  rw [List.filter_append, listMin_append]

/-- Best hits only depend on which candidates occur. -/
lemma bestHit_ext {l1 l2 : List ℚ} (h : ∀ x, x ∈ l1 ↔ x ∈ l2)
    (tmin tmax : F) : bestHit l1 tmin tmax = bestHit l2 tmin tmax :=
  listMin_ext fun x => by
    simp only [List.mem_filter]
    exact and_congr_left fun _ => h x

/-- Window membership unpacked into the two failed strict comparisons. -/
lemma inWindow_iff {t : ℚ} {tmin tmax : F} :
    inWindow t tmin tmax = true ↔
      F.flt (F.fin t) tmin = false ∧ F.flt tmax (F.fin t) = false := by
  simp [inWindow]

/-- A candidate below a finite upper bound in the window widens to any upper
bound the finite one does not exceed. -/
lemma inWindow_widen {t u : ℚ} {tmin tmax : F}
    (ht : inWindow t tmin (F.fin u) = true)
    (hu : F.flt tmax (F.fin u) = false) : inWindow t tmin tmax = true := by
  rw [inWindow_iff] at ht ⊢
  refine ⟨ht.1, ?_⟩
  have htu : t ≤ u := by
    have h2 := ht.2
    simp [F.flt] at h2
    linarith
  cases tmax <;> simp_all [F.flt] <;> linarith

/-- A windowed candidate stays in the window when the upper bound narrows to
any finite value at least the candidate. -/
lemma inWindow_narrow {t u : ℚ} {tmin tmax : F}
    (ht : inWindow t tmin tmax = true) (htu : t ≤ u) :
    inWindow t tmin (F.fin u) = true := by
  rw [inWindow_iff] at ht ⊢
  refine ⟨ht.1, ?_⟩
  simp [F.flt]
  linarith

/-- A candidate in a window with finite upper bound is below it. -/
lemma le_of_inWindow_fin_upper {t u : ℚ} {tmin : F}
    (h : inWindow t tmin (F.fin u) = true) : t ≤ u := by
  rw [inWindow_iff] at h
  have h2 := h.2
  simp [F.flt] at h2
  linarith

/-- A candidate in a window with finite lower bound is above it. -/
lemma ge_of_inWindow_fin_lower {t c : ℚ} {tmax : F}
    (h : inWindow t (F.fin c) tmax = true) : c ≤ t := by
  rw [inWindow_iff] at h
  have h1 := h.1
  simp [F.flt] at h1
  linarith

/-- The narrowing step of the traversal: combining a left-hand best hit t with
a right-hand query over the interval narrowed to [tmin, t] yields exactly the
merge of the two unnarrowed best hits — a closer right hit replaces t, a
farther one cannot shadow it. -/
lemma bestHit_narrow (L2 : List ℚ) {tmin tmax : F} {t : ℚ}
    (ht : inWindow t tmin tmax = true) :
    (match bestHit L2 tmin (F.fin t) with
     | some u => some u
     | none => some t) = omin (some t) (bestHit L2 tmin tmax) := by
  have htmax : F.flt tmax (F.fin t) = false := (inWindow_iff.mp ht).2
  rcases h2 : bestHit L2 tmin (F.fin t) with _ | u
  · rcases hf : bestHit L2 tmin tmax with _ | m
    · rfl
    · have hm := mem_of_bestHit hf
      have htm : t ≤ m := by
        by_contra hmt
        push_neg at hmt
        have hnar : inWindow m tmin (F.fin t) = true :=
          inWindow_narrow hm.2 (le_of_lt hmt)
        obtain ⟨u2, hu2, _⟩ := bestHit_isSome_of_mem hm.1 hnar
        rw [hu2] at h2
        exact absurd h2 (by simp)
      simp [omin, min_eq_left htm]
  · have hu := mem_of_bestHit h2
    have hut : u ≤ t := le_of_inWindow_fin_upper hu.2
    have huw : inWindow u tmin tmax = true := inWindow_widen hu.2 htmax
    obtain ⟨m, hm, hmu⟩ := bestHit_isSome_of_mem hu.1 huw
    have hmem := mem_of_bestHit hm
    have hmnar : inWindow m tmin (F.fin t) = true :=
      inWindow_narrow hmem.2 (le_trans hmu hut)
    obtain ⟨u2, hu2, hu2m⟩ := bestHit_isSome_of_mem hmem.1 hmnar
    rw [h2] at hu2
    have humeq : u = m := le_antisymm
      (le_trans (le_of_eq (Option.some.inj hu2)) hu2m) hmu
    rw [hm]
    simp [omin, min_eq_right (le_trans (le_of_eq humeq.symm) hut), humeq]

/-- The raise of the running lower bound performed by one slab iteration. -/
def updMin (tmin lo : F) : F := if F.flt tmin lo then lo else tmin

/-- The lowering of the running upper bound performed by one slab iteration. -/
def updMax (tmax hi : F) : F := if F.flt hi tmax then hi else tmax

/-- One slab iteration, restated through the per-axis entry/exit values. -/
lemma hitAxis_eq (b : Aabb) (r : Ray) (a : ℕ) (tmin tmax : F) :
    Aabb.hitAxis b r a tmin tmax =
      if F.fle (updMax tmax (slabHi b r a)) (updMin tmin (slabLo b r a)) then
        none
      else some (updMin tmin (slabLo b r a), updMax tmax (slabHi b r a)) :=
  rfl

/-- Raising the lower bound never introduces nan. -/
lemma updMin_ne_nan {x y : F} (hx : x ≠ F.nan) : updMin x y ≠ F.nan := by
  unfold updMin
  split_ifs with h
  · exact flt_ne_nan_right h
  · exact hx

/-- Lowering the upper bound never introduces nan. -/
lemma updMax_ne_nan {x y : F} (hx : x ≠ F.nan) : updMax x y ≠ F.nan := by
  unfold updMax
  split_ifs with h
  · exact flt_ne_nan_left h
  · exact hx

/-- A nan entry value leaves the lower bound unchanged. -/
lemma updMin_nan {x : F} : updMin x F.nan = x := by
  unfold updMin
  cases x <;> simp [F.flt]

/-- A -inf entry value leaves the lower bound unchanged. -/
lemma updMin_ninf {x : F} : updMin x F.ninf = x := by
  unfold updMin
  cases x <;> simp [F.flt]

/-- A +inf entry value forces the lower bound to +inf. -/
lemma updMin_pinf {x : F} (hx : x ≠ F.nan) : updMin x F.pinf = F.pinf := by
  unfold updMin
  cases x <;> simp_all [F.flt]

/-- A nan exit value leaves the upper bound unchanged. -/
lemma updMax_nan {x : F} : updMax x F.nan = x := by
  unfold updMax
  cases x <;> simp [F.flt]

/-- A +inf exit value leaves the upper bound unchanged. -/
lemma updMax_pinf {x : F} : updMax x F.pinf = x := by
  unfold updMax
  cases x <;> simp [F.flt]

/-- A -inf exit value forces the upper bound to -inf. -/
lemma updMax_ninf {x : F} (hx : x ≠ F.nan) : updMax x F.ninf = F.ninf := by
  unfold updMax
  cases x <;> simp_all [F.flt]

/-- Everything (non-nan) is at most +inf. -/
lemma fle_pinf {x : F} (hx : x ≠ F.nan) : F.fle x F.pinf = true := by
  cases x <;> simp_all [F.fle]

/-- Everything (non-nan) is at least -inf. -/
lemma ninf_fle {x : F} (hx : x ≠ F.nan) : F.fle F.ninf x = true := by
  cases x <;> simp_all [F.fle]

/-- The raised lower bound dominates the old one. -/
lemma fle_updMin_left {x y : F} (hx : x ≠ F.nan) :
    F.fle x (updMin x y) = true := by
  unfold updMin
  split_ifs with h
  · exact fle_of_flt h
  · exact fle_refl hx

/-- The raised lower bound dominates the entry value. -/
lemma fle_updMin_right {x y : F} (hx : x ≠ F.nan) (hy : y ≠ F.nan) :
    F.fle y (updMin x y) = true := by
  unfold updMin
  split_ifs with h
  · exact fle_refl hy
  · exact fle_of_not_flt hx hy (Bool.not_eq_true _ |>.mp h)

/-- The raised lower bound is below any common upper bound. -/
lemma updMin_le_of {x y z : F} (h1 : F.fle x z = true) (h2 : F.fle y z = true) :
    F.fle (updMin x y) z = true := by
  unfold updMin
  split_ifs with h
  · exact h2
  · exact h1

/-- The lowered upper bound is below the old one. -/
lemma updMax_le_left {x y : F} (hx : x ≠ F.nan) :
    F.fle (updMax x y) x = true := by
  unfold updMax
  split_ifs with h
  · exact fle_of_flt h
  · exact fle_refl hx

/-- The lowered upper bound is below the exit value. -/
lemma updMax_le_right {x y : F} (hx : x ≠ F.nan) (hy : y ≠ F.nan) :
    F.fle (updMax x y) y = true := by
  unfold updMax
  split_ifs with h
  · exact fle_refl hy
  · exact fle_of_not_flt hy hx (Bool.not_eq_true _ |>.mp h)

/-- Monotonicity of the raise in both arguments. -/
lemma updMin_mono {x1 x2 y1 y2 : F} (hx2 : x2 ≠ F.nan) (hy2 : y2 ≠ F.nan)
    (hx : F.fle x1 x2 = true) (hy : F.fle y1 y2 = true) :
    F.fle (updMin x1 y1) (updMin x2 y2) = true :=
  updMin_le_of (fle_trans hx (fle_updMin_left hx2))
    (fle_trans hy (fle_updMin_right hx2 hy2))

/-- Monotonicity of the lowering in both arguments. -/
lemma updMax_mono {x1 x2 y1 y2 : F} (hx1 : x1 ≠ F.nan) (hy1 : y1 ≠ F.nan)
    (hx : F.fle x1 x2 = true) (hy : F.fle y1 y2 = true) :
    F.fle (updMax x1 y1) (updMax x2 y2) = true := by
  have hcase : updMax x2 y2 = y2 ∨ updMax x2 y2 = x2 := by
    unfold updMax
    split_ifs <;> simp
  rcases hcase with hc | hc <;> rw [hc]
  · exact fle_trans (updMax_le_right hx1 hy1) hy
  · exact fle_trans (updMax_le_left hx1) hx

/-- Componentwise box inclusion (per axis, via the indexed accessor). -/
def Encloses (bs bb : Aabb) : Prop :=
  ∀ a : ℕ, bs.minimum.nth a ≤ bb.minimum.nth a ∧
    bb.maximum.nth a ≤ bs.maximum.nth a

/-- The surrounding box's minimum is the componentwise min, per index. -/
lemma surround_min_nth (A B : Aabb) (a : ℕ) :
    (Aabb.surroundingBox A B).minimum.nth a =
      min (A.minimum.nth a) (B.minimum.nth a) := by
  unfold Aabb.surroundingBox Vec3.nth
  split_ifs <;> rfl

/-- The surrounding box's maximum is the componentwise max, per index. -/
lemma surround_max_nth (A B : Aabb) (a : ℕ) :
    (Aabb.surroundingBox A B).maximum.nth a =
      max (A.maximum.nth a) (B.maximum.nth a) := by
  unfold Aabb.surroundingBox Vec3.nth
  split_ifs <;> rfl

/-- The surrounding box encloses its left argument. -/
lemma encloses_surround_left (A B : Aabb) :
    Encloses (Aabb.surroundingBox A B) A := fun a =>
  ⟨by rw [surround_min_nth]; exact min_le_left _ _,
   by rw [surround_max_nth]; exact le_max_left _ _⟩

/-- The surrounding box encloses its right argument. -/
lemma encloses_surround_right (A B : Aabb) :
    Encloses (Aabb.surroundingBox A B) B := fun a =>
  ⟨by rw [surround_min_nth]; exact min_le_right _ _,
   by rw [surround_max_nth]; exact le_max_right _ _⟩

/-- Behaviour of the per-axis entry value under box enlargement: it decreases,
except that a nan entry (ray parallel to the slab, origin on its lower face)
can become nan or -inf, and a +inf entry (ray parallel, origin outside) kills
the box test outright. -/
lemma slabLo_cases (bb bs : Aabb) (r : Ray) (a : ℕ)
    (hmin : bs.minimum.nth a ≤ bb.minimum.nth a)
    (hmax : bb.maximum.nth a ≤ bs.maximum.nth a) :
    (F.fle (slabLo bs r a) (slabLo bb r a) = true ∧
      slabLo bs r a ≠ F.nan ∧ slabLo bb r a ≠ F.nan) ∨
    (slabLo bb r a = F.nan ∧
      (slabLo bs r a = F.nan ∨ slabLo bs r a = F.ninf)) ∨
    slabLo bb r a = F.pinf := by
  unfold slabLo F.finInv
  by_cases hd : r.dir.nth a = 0
  · rw [if_pos hd]
    rcases lt_trichotomy (bb.minimum.nth a - r.orig.nth a) 0 with hb | hb | hb
    · have hs : bs.minimum.nth a - r.orig.nth a < 0 := by linarith
      left
      simp [F.finMul, F.flt, F.fle, not_lt_of_lt hb, hb, not_lt_of_lt hs, hs]
    · right; left
      constructor
      · simp [F.finMul, F.flt, hb]
      · rcases lt_or_eq_of_le (by linarith : bs.minimum.nth a - r.orig.nth a ≤ 0)
          with hs | hs
        · right; simp [F.finMul, F.flt, not_lt_of_lt hs, hs]
        · left; simp [F.finMul, F.flt, ← hs]
    · right; right
      simp [F.finMul, F.flt, hb]
  · rw [if_neg hd]
    by_cases hneg : (r.dir.nth a)⁻¹ < 0
    · left
      refine ⟨?_, by simp [F.finMul, F.flt, hneg], by simp [F.finMul, F.flt, hneg]⟩
      simp only [F.finMul, F.flt, decide_eq_true hneg, if_true, F.fle,
        decide_eq_true_eq]
      exact mul_le_mul_of_nonpos_right (by linarith) (le_of_lt hneg)
    · left
      refine ⟨?_, by simp [F.finMul, F.flt, hneg], by simp [F.finMul, F.flt, hneg]⟩
      simp only [decide_eq_false hneg, F.finMul, F.flt, F.fle, decide_eq_true_eq,
        if_false, Bool.false_eq_true]
      exact mul_le_mul_of_nonneg_right (by linarith) (by linarith)

/-- Behaviour of the per-axis exit value under box enlargement: it increases,
except that a nan exit can become nan or +inf, and a -inf exit kills the box
test outright. -/
lemma slabHi_cases (bb bs : Aabb) (r : Ray) (a : ℕ)
    (hmin : bs.minimum.nth a ≤ bb.minimum.nth a)
    (hmax : bb.maximum.nth a ≤ bs.maximum.nth a) :
    (F.fle (slabHi bb r a) (slabHi bs r a) = true ∧
      slabHi bb r a ≠ F.nan ∧ slabHi bs r a ≠ F.nan) ∨
    (slabHi bb r a = F.nan ∧
      (slabHi bs r a = F.nan ∨ slabHi bs r a = F.pinf)) ∨
    slabHi bb r a = F.ninf := by
  unfold slabHi F.finInv
  by_cases hd : r.dir.nth a = 0
  · rw [if_pos hd]
    rcases lt_trichotomy (bb.maximum.nth a - r.orig.nth a) 0 with hb | hb | hb
    · right; right
      simp [F.finMul, F.flt, not_lt_of_lt hb, hb]
    · right; left
      constructor
      · simp [F.finMul, F.flt, hb]
      · rcases lt_or_eq_of_le (by linarith : 0 ≤ bs.maximum.nth a - r.orig.nth a)
          with hs | hs
        · right; simp [F.finMul, F.flt, hs, not_lt_of_lt hs]
        · left; simp [F.finMul, F.flt, ← hs]
    · have hs : 0 < bs.maximum.nth a - r.orig.nth a := by linarith
      left
      simp [F.finMul, F.flt, F.fle, hb, hs, not_lt_of_lt hb, not_lt_of_lt hs]
  · rw [if_neg hd]
    by_cases hneg : (r.dir.nth a)⁻¹ < 0
    · left
      refine ⟨?_, by simp [F.finMul, F.flt, hneg], by simp [F.finMul, F.flt, hneg]⟩
      simp only [F.finMul, F.flt, decide_eq_true hneg, if_true, F.fle,
        decide_eq_true_eq]
      exact mul_le_mul_of_nonpos_right (by linarith) (le_of_lt hneg)
    · left
      refine ⟨?_, by simp [F.finMul, F.flt, hneg], by simp [F.finMul, F.flt, hneg]⟩
      simp only [decide_eq_false hneg, F.finMul, F.flt, F.fle, decide_eq_true_eq,
        if_false, Bool.false_eq_true]
      exact mul_le_mul_of_nonneg_right (by linarith) (by linarith)

/-- A successful non-strict comparison rules out nan on the left. -/
lemma fle_ne_nan_left {x y : F} (h : F.fle x y = true) : x ≠ F.nan := by
  cases x <;> simp_all [F.fle]

/-- A successful non-strict comparison rules out nan on the right. -/
lemma fle_ne_nan_right {x y : F} (h : F.fle x y = true) : y ≠ F.nan := by
  cases x <;> cases y <;> simp_all [F.fle]

/-- A slab iteration on an already-empty interval rejects immediately: the
bounds only tighten, so the final emptiness test fires. -/
lemma hitAxis_none_of_le (b : Aabb) (r : Ray) (a : ℕ) {tmin tmax : F}
    (h : F.fle tmax tmin = true) : Aabb.hitAxis b r a tmin tmax = none := by
  rw [hitAxis_eq, if_pos]
  exact fle_trans (updMax_le_left (fle_ne_nan_left h))
    (fle_trans h (fle_updMin_left (fle_ne_nan_right h)))

/-- The slab test unrolled: the ray hits the box exactly when all three axis
iterations keep the interval non-empty. -/
lemma aabbHit_eq_axes (b : Aabb) (r : Ray) (tmin tmax : F) :
    Aabb.hit b r tmin tmax = true ↔
      ∃ p0 p1 p2 : F × F, Aabb.hitAxis b r 0 tmin tmax = some p0 ∧
        Aabb.hitAxis b r 1 p0.1 p0.2 = some p1 ∧
        Aabb.hitAxis b r 2 p1.1 p1.2 = some p2 := by
  unfold Aabb.hit
  rcases h0 : Aabb.hitAxis b r 0 tmin tmax with _ | ⟨m0, x0⟩
  · simp [h0]
  · rcases h1 : Aabb.hitAxis b r 1 m0 x0 with _ | ⟨m1, x1⟩
    · simp [h0, h1]
    · rcases h2 : Aabb.hitAxis b r 2 m1 x1 with _ | ⟨m2, x2⟩
      · simp [h0, h1, h2]
      · simp [h0, h1, h2]
        exact ⟨m1, x1, ⟨rfl, rfl⟩, m2, x2, h2⟩

/-- One slab iteration is monotone under box enlargement: continuing with the
smaller box over a tighter interval implies continuing with the larger box
over its looser interval, with the produced intervals nested the same way
(and never nan). -/
lemma hitAxis_mono {bb bs : Aabb} {r : Ray} {a : ℕ}
    (hmin : bs.minimum.nth a ≤ bb.minimum.nth a)
    (hmax : bb.maximum.nth a ≤ bs.maximum.nth a)
    {tminB tmaxB tminS tmaxS : F}
    (hnB1 : tminB ≠ F.nan) (hnB2 : tmaxB ≠ F.nan)
    (hnS1 : tminS ≠ F.nan) (hnS2 : tmaxS ≠ F.nan)
    (hle1 : F.fle tminS tminB = true) (hle2 : F.fle tmaxB tmaxS = true)
    {p : F × F} (hB : Aabb.hitAxis bb r a tminB tmaxB = some p) :
    ∃ q : F × F, Aabb.hitAxis bs r a tminS tmaxS = some q ∧
      q.1 ≠ F.nan ∧ q.2 ≠ F.nan ∧ p.1 ≠ F.nan ∧ p.2 ≠ F.nan ∧
      F.fle q.1 p.1 = true ∧ F.fle p.2 q.2 = true := by
  rw [hitAxis_eq] at hB
  by_cases hBtest : F.fle (updMax tmaxB (slabHi bb r a))
      (updMin tminB (slabLo bb r a)) = true
  · rw [if_pos hBtest] at hB
    exact absurd hB (by simp)
  · rw [if_neg hBtest] at hB
    have hp : p = (updMin tminB (slabLo bb r a), updMax tmaxB (slabHi bb r a)) :=
      (Option.some.inj hB).symm
    have hlo := slabLo_cases bb bs r a hmin hmax
    have hhi := slabHi_cases bb bs r a hmin hmax
    have hminle : F.fle (updMin tminS (slabLo bs r a))
        (updMin tminB (slabLo bb r a)) = true := by
      rcases hlo with ⟨hf, hnS, hnB⟩ | ⟨hnanB, hS⟩ | hpinfB
      · exact updMin_mono hnB1 hnB hle1 hf
      · rw [hnanB, updMin_nan]
        rcases hS with h | h <;> rw [h]
        · rw [updMin_nan]; exact hle1
        · rw [updMin_ninf]; exact hle1
      · exfalso
        apply hBtest
        rw [hpinfB, updMin_pinf hnB1]
        exact fle_pinf (updMax_ne_nan hnB2)
    have hmaxle : F.fle (updMax tmaxB (slabHi bb r a))
        (updMax tmaxS (slabHi bs r a)) = true := by
      rcases hhi with ⟨hf, hnB, hnS⟩ | ⟨hnanB, hS⟩ | hninfB
      · exact updMax_mono hnB2 hnB hle2 hf
      · rw [hnanB, updMax_nan]
        rcases hS with h | h <;> rw [h]
        · rw [updMax_nan]; exact hle2
        · rw [updMax_pinf]; exact hle2
      · exfalso
        apply hBtest
        rw [hninfB, updMax_ninf hnB2]
        exact ninf_fle (updMin_ne_nan hnB1)
    have hStest : ¬ F.fle (updMax tmaxS (slabHi bs r a))
        (updMin tminS (slabLo bs r a)) = true := by
      intro hc
      exact hBtest (fle_trans hmaxle (fle_trans hc hminle))
    refine ⟨(updMin tminS (slabLo bs r a), updMax tmaxS (slabHi bs r a)),
      ?_, ?_, ?_, ?_, ?_, ?_, ?_⟩
    · rw [hitAxis_eq, if_neg hStest]
    · exact updMin_ne_nan hnS1
    · exact updMax_ne_nan hnS2
    · rw [hp]; exact updMin_ne_nan hnB1
    · rw [hp]; exact updMax_ne_nan hnB2
    · rw [hp]; exact hminle
    · rw [hp]; exact hmaxle

/-- Enlarging a box can only turn slab misses into slab hits: a ray hitting a
box over an interval also hits any enclosing box over any enclosing
interval. -/
lemma aabbHit_mono {bb bs : Aabb} {r : Ray} (hen : Encloses bs bb)
    {tmin tmax : F} (h1 : tmin ≠ F.nan) (h2 : tmax ≠ F.nan)
    (hhit : Aabb.hit bb r tmin tmax = true) :
    Aabb.hit bs r tmin tmax = true := by
  obtain ⟨p0, p1, p2, hB0, hB1, hB2⟩ := (aabbHit_eq_axes bb r tmin tmax).mp hhit
  obtain ⟨q0, hS0, hq01, hq02, hp01, hp02, hle01, hle02⟩ :=
    hitAxis_mono (hen 0).1 (hen 0).2 h1 h2 h1 h2 (fle_refl h1) (fle_refl h2) hB0
  obtain ⟨q1, hS1, hq11, hq12, hp11, hp12, hle11, hle12⟩ :=
    hitAxis_mono (hen 1).1 (hen 1).2 hp01 hp02 hq01 hq02 hle01 hle02 hB1
  obtain ⟨q2, hS2, _, _, _, _, _, _⟩ :=
    hitAxis_mono (hen 2).1 (hen 2).2 hp11 hp12 hq11 hq12 hle11 hle12 hB2
  exact (aabbHit_eq_axes bs r tmin tmax).mpr ⟨q0, q1, q2, hS0, hS1, hS2⟩

/-- The slab test rejects outright on an empty (or degenerate) interval. -/
lemma aabbHit_false_of_le {b : Aabb} {r : Ray} {tmin tmax : F}
    (h : F.fle tmax tmin = true) : Aabb.hit b r tmin tmax = false := by
  unfold Aabb.hit
  rw [hitAxis_none_of_le b r 0 h]

/-- A primitive as the traversal sees it, along one fixed ray: the list of
candidate hit parameters of the ray against it (a sphere's two quadratic
roots, say) and its bounding box.  Its hit test returns the nearest candidate
inside the closed query window — the observable behaviour of
Sphere::hit_implementation on the hit parameter (windowChoice_eq_bestHit). -/
structure Prim where
  hits : List ℚ
  box : Aabb
deriving DecidableEq

/-- The tree of Hittables a BVH build produces: leaves are the scene's
primitives, internal nodes own two children and cache their Aabb. -/
inductive HTree where
  | prim (p : Prim) : HTree
  | node (l r : HTree) (bbox : Aabb) : HTree
deriving DecidableEq

/-- All candidate hit parameters below a tree. -/
def HTree.cands : HTree → List ℚ
  | .prim p => p.hits
  | .node l r _ => l.cands ++ r.cands

/-- The bounding box a tree reports (a primitive its own, a node its cache). -/
def HTree.box : HTree → Aabb
  | .prim p => p.box
  | .node _ _ b => b

/-- BvhNode::hit (src/scene/bvh.rs lines 126-169) for rays with the debug-BVH
flag unset (the debug branch at lines 130-143 is guarded by r.debug_bvh()):
prune when the ray misses the cached box, delegate once when both children
alias (Arc::ptr_eq — true exactly when the build cloned one Arc into both
children; modelled as structural equality, observationally identical since
evaluating an aliased child twice returns the same hit), otherwise query the
left child over the full interval and the right child over the interval
narrowed to the left hit, preferring the right result. -/
def treeHit (r : Ray) : HTree → F → F → Option ℚ
  | .prim p, tmin, tmax => bestHit p.hits tmin tmax
  | .node l rt bbox, tmin, tmax =>
    if !(bbox.hit r tmin tmax) then none
    else if l = rt then treeHit r l tmin tmax
    else
      let hitLeft := treeHit r l tmin tmax
      let hitRight := treeHit r rt tmin
        (match hitLeft with
         | some t => F.fin t
         | none => tmax)
      match hitRight with
      | none => hitLeft
      | some t => some t

/-- The loop body of HittableList::hit (src/scene/hittable_list.rs lines
24-38): fold over the objects, narrowing closest_so_far to each hit found. -/
def listHitAux (tmin : F) : List Prim → Option ℚ → F → Option ℚ
  | [], temp, _ => temp
  | p :: rest, temp, closest =>
    match bestHit p.hits tmin closest with
    | some t => listHitAux tmin rest (some t) (F.fin t)
    | none => listHitAux tmin rest temp closest

/-- HittableList::hit: the brute-force linear scan over all primitives. -/
def listHit (ps : List Prim) (tmin tmax : F) : Option ℚ :=
  listHitAux tmin ps none tmax

/-- All candidate hit parameters of a scene. -/
def allHits : List Prim → List ℚ
  | [] => []
  | p :: rest => p.hits ++ allHits rest

/-- Candidates of an appended scene. -/
lemma allHits_append (xs ys : List Prim) :
    allHits (xs ++ ys) = allHits xs ++ allHits ys := by
  induction xs with
  | nil => rfl
  | cons p xs ih => simp [allHits, ih]

/-- Membership in a scene's candidates. -/
lemma mem_allHits {q : ℚ} {ps : List Prim} :
    q ∈ allHits ps ↔ ∃ p ∈ ps, q ∈ p.hits := by
  induction ps with
  | nil => simp [allHits]
  | cons p rest ih => simp [allHits, ih]

/-- The trees BvhNode::new can produce over a primitive list (src/scene/bvh.rs
lines 68-118): a singleton list aliases the primitive into both children; a
pair takes one each; a longer list splits a permutation (the sort by a random
axis) at the midpoint index and recurses, each node caching the surrounding
box of its children's boxes. -/
inductive Built : HTree → List Prim → Prop where
  | one (p : Prim) :
      Built (.node (.prim p) (.prim p) (Aabb.surroundingBox p.box p.box)) [p]
  | two (p q : Prim) :
      Built (.node (.prim p) (.prim q) (Aabb.surroundingBox p.box q.box)) [p, q]
  | split (ps ps2 : List Prim) (l rt : HTree)
      (hlen : 3 ≤ ps.length) (hperm : ps2.Perm ps)
      (hl : Built l (ps2.take (ps2.length / 2)))
      (hr : Built rt (ps2.drop (ps2.length / 2))) :
      Built (.node l rt (Aabb.surroundingBox l.box rt.box)) ps

/-- The geometric soundness of the scene's bounding boxes along the ray: any
candidate hit lying in a non-degenerate query window makes the primitive's
own box pass the slab test over that window.  (This holds for non-degenerate
geometric primitives — e.g. spheres of nonzero radius — and fails for
degenerate windows t_min = t_max, where the slab test always rejects; hence
the strictness hypothesis.) -/
def BoxesContain (r : Ray) (ps : List Prim) : Prop :=
  ∀ p ∈ ps, ∀ t ∈ p.hits, ∀ tmin tmax : F, tmin ≠ F.nan → tmax ≠ F.nan →
    F.flt tmin tmax = true → inWindow t tmin tmax = true →
    Aabb.hit p.box r tmin tmax = true

/-- A tree whose reported box detects every windowed candidate below it. -/
def TreeCover (r : Ray) (t : HTree) : Prop :=
  ∀ q ∈ t.cands, ∀ tmin tmax : F, tmin ≠ F.nan → tmax ≠ F.nan →
    F.flt tmin tmax = true → inWindow q tmin tmax = true →
    Aabb.hit t.box r tmin tmax = true

/-- Every node of the tree covers its own subtree's candidates. -/
def GoodTree (r : Ray) : HTree → Prop
  | .prim _ => True
  | .node l rt b => TreeCover r (.node l rt b) ∧ GoodTree r l ∧ GoodTree r rt

/-- Containment restricts to sublists. -/
lemma boxesContain_sublist {r : Ray} {ps ps2 : List Prim}
    (h : BoxesContain r ps) (hsub : ∀ p ∈ ps2, p ∈ ps) :
    BoxesContain r ps2 := fun p hp => h p (hsub p hp)

/-- A candidate bounding all windowed candidates is the best hit. -/
lemma bestHit_eq_some {cands : List ℚ} {tmin tmax : F} {m : ℚ}
    (hm : m ∈ cands) (hw : inWindow m tmin tmax = true)
    (hmin : ∀ x ∈ cands, inWindow x tmin tmax = true → m ≤ x) :
    bestHit cands tmin tmax = some m :=
  listMin_eq_some (List.mem_filter.mpr ⟨hm, hw⟩) fun x hx =>
    hmin x (List.mem_filter.mp hx).1 (List.mem_filter.mp hx).2

/-- On a degenerate window [c, c] a traversal returns nothing (an internal
node's box test always rejects an empty interval) or the point c itself (a
leaf's window test accepts a candidate equal to both bounds). -/
lemma treeHit_degenerate (r : Ray) (t : HTree) (c : ℚ) :
    treeHit r t (F.fin c) (F.fin c) = none ∨
    treeHit r t (F.fin c) (F.fin c) = some c := by
  cases t with
  | prim p =>
    rcases h : bestHit p.hits (F.fin c) (F.fin c) with _ | u
    · left; exact h
    · right
      have hm := mem_of_bestHit h
      have h1 : u ≤ c := le_of_inWindow_fin_upper hm.2
      have h2 : c ≤ u := ge_of_inWindow_fin_lower hm.2
      rw [show treeHit r (.prim p) (F.fin c) (F.fin c) =
        bestHit p.hits (F.fin c) (F.fin c) from rfl, h, le_antisymm h1 h2]
  | node l rt b =>
    left
    have hfalse : Aabb.hit b r (F.fin c) (F.fin c) = false :=
      aabbHit_false_of_le (fle_refl (by simp))
    simp [treeHit, hfalse]

/-- Built trees over box-sound scenes are good, and carry exactly the scene's
candidates. -/
lemma built_good {r : Ray} {t : HTree} {ps : List Prim} (hb : Built t ps)
    (hbox : BoxesContain r ps) :
    TreeCover r t ∧ GoodTree r t ∧ (∀ q, q ∈ t.cands ↔ q ∈ allHits ps) := by
  induction hb with
  | one p =>
    have hcov : TreeCover r (.node (.prim p) (.prim p)
        (Aabb.surroundingBox p.box p.box)) := by
      intro q hq tmin tmax h1 h2 hlt hw
      have hqp : q ∈ p.hits := by
        simpa [HTree.cands] using hq
      exact aabbHit_mono (encloses_surround_left _ _) h1 h2
        (hbox p (by simp) q hqp tmin tmax h1 h2 hlt hw)
    refine ⟨hcov, ⟨hcov, trivial, trivial⟩, ?_⟩
    intro q
    simp [HTree.cands, allHits]
  | two p q =>
    have hcov : TreeCover r (.node (.prim p) (.prim q)
        (Aabb.surroundingBox p.box q.box)) := by
      intro x hx tmin tmax h1 h2 hlt hw
      rcases List.mem_append.mp (by simpa [HTree.cands] using hx) with hxl | hxr
      · exact aabbHit_mono (encloses_surround_left _ _) h1 h2
          (hbox p (by simp) x hxl tmin tmax h1 h2 hlt hw)
      · exact aabbHit_mono (encloses_surround_right _ _) h1 h2
          (hbox q (by simp) x hxr tmin tmax h1 h2 hlt hw)
    refine ⟨hcov, ⟨hcov, trivial, trivial⟩, ?_⟩
    intro x
    simp [HTree.cands, allHits]
  | split ps ps2 l rt hlen hperm hl hr ihl ihr =>
    have hboxl : BoxesContain r (ps2.take (ps2.length / 2)) :=
      boxesContain_sublist hbox fun p hp =>
        hperm.mem_iff.mp (List.mem_of_mem_take hp)
    have hboxr : BoxesContain r (ps2.drop (ps2.length / 2)) :=
      boxesContain_sublist hbox fun p hp =>
        hperm.mem_iff.mp (List.mem_of_mem_drop hp)
    obtain ⟨hcovl, hgoodl, hmeml⟩ := ihl hboxl
    obtain ⟨hcovr, hgoodr, hmemr⟩ := ihr hboxr
    have hcov : TreeCover r (.node l rt (Aabb.surroundingBox l.box rt.box)) := by
      intro x hx tmin tmax h1 h2 hlt hw
      rcases List.mem_append.mp (by simpa [HTree.cands] using hx) with hxl | hxr
      · exact aabbHit_mono (encloses_surround_left _ _) h1 h2
          (hcovl x hxl tmin tmax h1 h2 hlt hw)
      · exact aabbHit_mono (encloses_surround_right _ _) h1 h2
          (hcovr x hxr tmin tmax h1 h2 hlt hw)
    refine ⟨hcov, ⟨hcov, hgoodl, hgoodr⟩, ?_⟩
    intro x
    have hsplit2 : allHits (ps2.take (ps2.length / 2)) ++
        allHits (ps2.drop (ps2.length / 2)) = allHits ps2 := by
      rw [← allHits_append, List.take_append_drop]
    constructor
    · intro hx
      rcases List.mem_append.mp (by simpa [HTree.cands] using hx) with hxl | hxr
      · have := (hmeml x).mp hxl
        rw [mem_allHits] at this ⊢
        obtain ⟨p, hp, hph⟩ := this
        exact ⟨p, hperm.mem_iff.mp (List.mem_of_mem_take hp), hph⟩
      · have := (hmemr x).mp hxr
        rw [mem_allHits] at this ⊢
        obtain ⟨p, hp, hph⟩ := this
        exact ⟨p, hperm.mem_iff.mp (List.mem_of_mem_drop hp), hph⟩
    · intro hx
      rw [mem_allHits] at hx
      obtain ⟨p, hp, hph⟩ := hx
      have hp2 : p ∈ ps2 := hperm.mem_iff.mpr hp
      have : x ∈ allHits ps2 := mem_allHits.mpr ⟨p, hp2, hph⟩
      rw [← hsplit2] at this
      rcases List.mem_append.mp this with hxl | hxr
      · exact by
          simp only [HTree.cands]
          exact List.mem_append.mpr (Or.inl ((hmeml x).mpr hxl))
      · exact by
          simp only [HTree.cands]
          exact List.mem_append.mpr (Or.inr ((hmemr x).mpr hxr))

/-- The two spellings of the option-preferring match agree. -/
lemma option_match_comm (X : Option ℚ) (d : ℚ) :
    (match X with | none => some d | some t0 => some t0) =
    (match X with | some u => some u | none => some d) := by
  rcases X <;> rfl

/-- The heart of the refinement: over a non-degenerate window, traversal of a
good tree returns exactly the nearest windowed candidate of its subtree. -/
lemma treeHit_eq_bestHit {r : Ray} (t : HTree) (hg : GoodTree r t) :
    ∀ tmin tmax : F, tmin ≠ F.nan → tmax ≠ F.nan → F.flt tmin tmax = true →
      treeHit r t tmin tmax = bestHit t.cands tmin tmax := by
  induction t with
  | prim p =>
    intro tmin tmax _ _ _
    rfl
  | node l rt b ihl ihr =>
    intro tmin tmax h1 h2 hlt
    obtain ⟨hcov, hgl, hgr⟩ := hg
    by_cases hbb : Aabb.hit b r tmin tmax = true
    · rw [show treeHit r (.node l rt b) tmin tmax =
        (if !(Aabb.hit b r tmin tmax) then none
         else if l = rt then treeHit r l tmin tmax
         else
           match treeHit r rt tmin
               (match treeHit r l tmin tmax with
                | some t0 => F.fin t0
                | none => tmax) with
           | none => treeHit r l tmin tmax
           | some t0 => some t0) from rfl, hbb]
      simp only [Bool.not_true, Bool.false_eq_true, if_false]
      by_cases heq : l = rt
      · subst heq
        rw [if_pos rfl, ihl hgl tmin tmax h1 h2 hlt]
        apply bestHit_ext
        intro x
        simp [HTree.cands]
      · rw [if_neg heq]
        have hLeq := ihl hgl tmin tmax h1 h2 hlt
        rcases hL : treeHit r l tmin tmax with _ | lt
        · have hLb : bestHit l.cands tmin tmax = none := by
            rw [← hLeq]; exact hL
          rw [show (match (none : Option ℚ) with
               | some t0 => F.fin t0
               | none => tmax) = tmax from rfl]
          have hReq := ihr hgr tmin tmax h1 h2 hlt
          rw [show (HTree.node l rt b).cands = l.cands ++ rt.cands from rfl,
            bestHit_append, hLb]
          rcases hR : treeHit r rt tmin tmax with _ | u <;>
            rw [hR] at hReq <;> rw [← hReq] <;> rfl
        · rw [show (match (some lt : Option ℚ) with
               | some t0 => F.fin t0
               | none => tmax) = F.fin lt from rfl]
          have hLb : bestHit l.cands tmin tmax = some lt := by
            rw [← hLeq]; exact hL
          have hltw : inWindow lt tmin tmax = true := (mem_of_bestHit hLb).2
          rw [show (HTree.node l rt b).cands = l.cands ++ rt.cands from rfl,
            bestHit_append, hLb]
          by_cases hstrict : F.flt tmin (F.fin lt) = true
          · have hReq := ihr hgr tmin (F.fin lt) h1 (by simp) hstrict
            rw [hReq, option_match_comm]
            exact bestHit_narrow rt.cands hltw
          · have hmineq : tmin = F.fin lt :=
              feq_of_not_flt h1 (by simp)
                (by rw [Bool.not_eq_true] at hstrict; exact hstrict)
                (inWindow_iff.mp hltw).1
            have hbest : omin (some lt) (bestHit rt.cands tmin tmax) = some lt := by
              have hb2 : bestHit (l.cands ++ rt.cands) tmin tmax = some lt := by
                apply bestHit_eq_some
                · exact List.mem_append.mpr (Or.inl (mem_of_bestHit hLb).1)
                · exact hltw
                · intro x _ hxw
                  rw [hmineq] at hxw
                  exact ge_of_inWindow_fin_lower hxw
              rw [bestHit_append, hLb] at hb2
              exact hb2
            rw [hmineq] at hbest ⊢
            rw [hbest]
            rcases treeHit_degenerate r rt lt with hdeg | hdeg <;>
              rw [hdeg]
        -- (both cases closed above)
    · have hbbf : Aabb.hit b r tmin tmax = false := by
        simpa using hbb
      rw [show treeHit r (.node l rt b) tmin tmax =
        (if !(Aabb.hit b r tmin tmax) then none
         else if l = rt then treeHit r l tmin tmax
         else
           match treeHit r rt tmin
               (match treeHit r l tmin tmax with
                | some t0 => F.fin t0
                | none => tmax) with
           | none => treeHit r l tmin tmax
           | some t0 => some t0) from rfl, hbbf]
      simp only [Bool.not_false, if_true]
      rcases hbest : bestHit (HTree.node l rt b).cands tmin tmax with _ | m
      · rfl
      · exfalso
        have hm := mem_of_bestHit hbest
        have := hcov m hm.1 tmin tmax h1 h2 hlt hm.2
        rw [show (HTree.node l rt b).box = b from rfl] at this
        rw [this] at hbbf
        exact absurd hbbf (by simp)

/-- The linear scan's fold computes the nearest candidate within the running
window, falling back to the best hit found so far. -/
lemma listHitAux_eq (tmin : F) :
    ∀ (ps : List Prim) (temp : Option ℚ) (closest : F),
      listHitAux tmin ps temp closest =
        (match bestHit (allHits ps) tmin closest with
         | some u => some u
         | none => temp) := by
  intro ps
  induction ps with
  | nil =>
    intro temp closest
    rw [show allHits [] = [] from rfl]
    rfl
  | cons p rest ih =>
    intro temp closest
    rw [show listHitAux tmin (p :: rest) temp closest =
      (match bestHit p.hits tmin closest with
       | some t => listHitAux tmin rest (some t) (F.fin t)
       | none => listHitAux tmin rest temp closest) from rfl]
    rw [show allHits (p :: rest) = p.hits ++ allHits rest from rfl,
      bestHit_append]
    rcases hp : bestHit p.hits tmin closest with _ | t
    · rw [show (match (none : Option ℚ) with
        | some t0 => listHitAux tmin rest (some t0) (F.fin t0)
        | none => listHitAux tmin rest temp closest) =
        listHitAux tmin rest temp closest from rfl]
      rw [ih temp closest]
      rcases bestHit (allHits rest) tmin closest with _ | u <;> rfl
    · rw [show (match (some t : Option ℚ) with
        | some t0 => listHitAux tmin rest (some t0) (F.fin t0)
        | none => listHitAux tmin rest temp closest) =
        listHitAux tmin rest (some t) (F.fin t) from rfl]
      rw [ih (some t) (F.fin t)]
      have htw : inWindow t tmin closest = true := (mem_of_bestHit hp).2
      have hnarrow := bestHit_narrow (allHits rest) htw
      rw [hnarrow]
      rcases bestHit (allHits rest) tmin closest with _ | u <;> rfl

/-- HittableList::hit computes the nearest windowed candidate of the scene. -/
lemma listHit_eq_bestHit (ps : List Prim) (tmin tmax : F) :
    listHit ps tmin tmax = bestHit (allHits ps) tmin tmax := by
  rw [listHit, listHitAux_eq]
  rcases bestHit (allHits ps) tmin tmax with _ | u <;> rfl

/-- C1 (amended): for every ray with the debug-BVH flag unset, every
non-degenerate query interval (t_min strictly below t_max), and every scene of
primitives whose bounding boxes detect their windowed hits (BoxesContain —
true of non-degenerate geometric primitives), any BVH built over the scene
returns from hit exactly the result of the brute-force linear scan
HittableList::hit: the same hit parameter t, and None exactly when the scan
finds no hit. -/
theorem bvh_hit_matches_linear_scan (r : Ray) (t : HTree) (ps : List Prim)
    (hdbg : r.debugBvh = false) (hb : Built t ps) (hbox : BoxesContain r ps)
    (tmin tmax : F) (h1 : tmin ≠ F.nan) (h2 : tmax ≠ F.nan)
    (hlt : F.flt tmin tmax = true) :
    treeHit r t tmin tmax = listHit ps tmin tmax := by
  obtain ⟨_, hgood, hmem⟩ := built_good hb hbox
  rw [treeHit_eq_bestHit t hgood tmin tmax h1 h2 hlt, listHit_eq_bestHit]
  exact bestHit_ext hmem tmin tmax

/-- The box of the counterexample and witness scenes. -/
def wBox : Aabb := ⟨⟨-100, -100, -100⟩, ⟨100, 100, 100⟩⟩

/-- A primitive hitting the witness ray at t = 2, bounded by wBox. -/
def wPrim : Prim := ⟨[2], wBox⟩

/-- The witness ray from the origin along (1,1,1), debug flag unset. -/
def wRay : Ray := ⟨⟨0, 0, 0⟩, ⟨1, 1, 1⟩, 0, false⟩

/-- The BVH the build produces over the singleton scene [wPrim]. -/
def wTree : HTree :=
  .node (.prim wPrim) (.prim wPrim) (Aabb.surroundingBox wBox wBox)

/-- C1 counterexample: on the DEGENERATE interval [2, 2] the claim fails —
the slab test rejects any box once t_max <= t_min, so BvhNode::hit prunes at
the root and returns None, while HittableList::hit queries the primitive
directly and returns its hit at exactly t = 2.  The scene is a perfectly
ordinary one (built by BvhNode::new from one primitive hitting the ray at
t = 2 inside its box), so the claim's "every interval [t_min, t_max]" is
refuted at t_min = t_max = 2. -/
theorem bvh_degenerate_interval_mismatch :
    Built wTree [wPrim] ∧
    wRay.debugBvh = false ∧
    treeHit wRay wTree (F.fin 2) (F.fin 2) = none ∧
    listHit [wPrim] (F.fin 2) (F.fin 2) = some 2 := by
  refine ⟨Built.one wPrim, rfl, ?_, ?_⟩
  · have hfalse : Aabb.hit (Aabb.surroundingBox wBox wBox) wRay
        (F.fin 2) (F.fin 2) = false :=
      aabbHit_false_of_le (fle_refl (by simp))
    simp [wTree, treeHit, hfalse]
  · norm_num [listHit, listHitAux, bestHit, inWindow, F.flt, listMin,
      wPrim, List.filter]

/-- Either branch of the raise. -/
lemma updMin_cases (x y : F) : updMin x y = x ∨ updMin x y = y := by
  unfold updMin
  split_ifs <;> simp

/-- Either branch of the lowering. -/
lemma updMax_cases (x y : F) : updMax x y = x ∨ updMax x y = y := by
  unfold updMax
  split_ifs <;> simp

/-- The lowered upper bound dominates any common lower bound. -/
lemma updMax_ge_of {x y z : F} (h1 : F.fle z x = true) (h2 : F.fle z y = true) :
    F.fle z (updMax x y) = true := by
  unfold updMax
  split_ifs with h
  · exact h2
  · exact h1

/-- Strictly raising a finite upper bound keeps a dominated value strictly
below. -/
lemma flt_of_fle_of_lt {x : F} {a b : ℚ} (h : F.fle x (F.fin a) = true)
    (hab : a < b) : F.flt x (F.fin b) = true := by
  cases x <;> simp_all [F.fle, F.flt] <;> linarith

/-- Strictly lowering a finite lower bound keeps a dominating value strictly
above. -/
lemma flt_of_lt_of_fle {y : F} {a b : ℚ} (hab : a < b)
    (h : F.fle (F.fin b) y = true) : F.flt (F.fin a) y = true := by
  cases y <;> simp_all [F.fle, F.flt] <;> linarith

/-- A strict comparison refutes the reversed non-strict one. -/
lemma not_fle_of_flt {x y : F} (h : F.flt x y = true) : F.fle y x = false := by
  by_contra hc
  rw [Bool.not_eq_false] at hc
  rw [not_flt_of_fle hc] at h
  exact absurd h (by simp)

/-- One slab iteration on an axis whose entry/exit values are finite and
strictly bracket a point q of the query interval: the iteration continues,
and the produced interval still strictly brackets q. -/
lemma hitAxis_progress (b : Aabb) (r : Ray) (a : ℕ) {q clo chi : ℚ}
    {tmin tmax : F} (h1 : tmin ≠ F.nan) (h2 : tmax ≠ F.nan)
    (hstrict : F.flt tmin tmax = true)
    (hup : F.fle tmin (F.fin q) = true) (hdown : F.fle (F.fin q) tmax = true)
    (hloval : slabLo b r a = F.fin clo) (hhival : slabHi b r a = F.fin chi)
    (hclo : clo < q) (hchi : q < chi) :
    ∃ p : F × F, Aabb.hitAxis b r a tmin tmax = some p ∧
      p.1 ≠ F.nan ∧ p.2 ≠ F.nan ∧ F.flt p.1 p.2 = true ∧
      F.fle p.1 (F.fin q) = true ∧ F.fle (F.fin q) p.2 = true := by
  have hm_nonnan : updMin tmin (slabLo b r a) ≠ F.nan := updMin_ne_nan h1
  have hx_nonnan : updMax tmax (slabHi b r a) ≠ F.nan := updMax_ne_nan h2
  have hmq : F.fle (updMin tmin (slabLo b r a)) (F.fin q) = true := by
    rw [hloval]
    exact updMin_le_of hup (by simp [F.fle]; linarith)
  have hqx : F.fle (F.fin q) (updMax tmax (slabHi b r a)) = true := by
    rw [hhival]
    exact updMax_ge_of hdown (by simp [F.fle]; linarith)
  have hmx : F.flt (updMin tmin (slabLo b r a))
      (updMax tmax (slabHi b r a)) = true := by
    rcases updMin_cases tmin (slabLo b r a) with hm | hm <;>
      rcases updMax_cases tmax (slabHi b r a) with hx | hx <;>
      rw [hm, hx]
    · exact hstrict
    · rw [hhival]
      exact flt_of_fle_of_lt hup (by linarith)
    · rw [hloval]
      exact flt_of_lt_of_fle (by linarith) hdown
    · rw [hloval, hhival]
      simp [F.flt]
      linarith
  refine ⟨(updMin tmin (slabLo b r a), updMax tmax (slabHi b r a)), ?_,
    hm_nonnan, hx_nonnan, hmx, hmq, hqx⟩
  rw [hitAxis_eq, if_neg (by rw [not_fle_of_flt hmx]; simp)]

/-- The slab values of the witness box are -100 and 100 on every axis. -/
lemma wBox_slab (a : ℕ) :
    slabLo wBox wRay a = F.fin (-100) ∧ slabHi wBox wRay a = F.fin 100 := by
  unfold slabLo slabHi wBox wRay F.finInv Vec3.nth
  split_ifs <;> simp_all <;> norm_num [F.finMul, F.flt]

/-- The witness scene is box-sound: any windowed hit of wPrim (its only hit
is t = 2) makes wBox pass the slab test over any non-degenerate window. -/
lemma wBoxesContain : BoxesContain wRay [wPrim] := by
  intro p hp t ht tmin tmax h1 h2 hstrict hw
  have hp2 : p = wPrim := by simpa using hp
  subst hp2
  have ht2 : t = 2 := by simpa [wPrim] using ht
  subst ht2
  have hup : F.fle tmin (F.fin 2) = true :=
    fle_of_not_flt (by simp) h1 (inWindow_iff.mp hw).1
  have hdown : F.fle (F.fin 2) tmax = true :=
    fle_of_not_flt h2 (by simp) (inWindow_iff.mp hw).2
  obtain ⟨p0, hp0, hn01, hn02, hs0, hq01, hq02⟩ :=
    hitAxis_progress wBox wRay 0 h1 h2 hstrict hup hdown (wBox_slab 0).1
      (wBox_slab 0).2 (by norm_num) (by norm_num)
  obtain ⟨p1, hp1, hn11, hn12, hs1, hq11, hq12⟩ :=
    hitAxis_progress wBox wRay 1 hn01 hn02 hs0 hq01 hq02 (wBox_slab 1).1
      (wBox_slab 1).2 (by norm_num) (by norm_num)
  obtain ⟨p2, hp2, _, _, _, _, _⟩ :=
    hitAxis_progress wBox wRay 2 hn11 hn12 hs1 hq11 hq12 (wBox_slab 2).1
      (wBox_slab 2).2 (by norm_num) (by norm_num)
  have hhp : Aabb.hit wPrim.box wRay tmin tmax = true :=
    (aabbHit_eq_axes wPrim.box wRay tmin tmax).mpr ⟨p0, p1, p2, hp0, hp1, hp2⟩
  exact hhp

/-- Witness for C1 on the singleton scene [wPrim] over the integrator's
window [0.001, +inf). -/
theorem bvh_hit_matches_linear_scan_witness :
    (wRay.debugBvh = false ∧ Built wTree [wPrim] ∧
      BoxesContain wRay [wPrim] ∧
      F.flt (F.fin (1/1000)) F.pinf = true) ∧
    treeHit wRay wTree (F.fin (1/1000)) F.pinf =
      listHit [wPrim] (F.fin (1/1000)) F.pinf := by
  refine ⟨⟨rfl, Built.one wPrim, wBoxesContain, by simp [F.flt]⟩, ?_⟩
  exact bvh_hit_matches_linear_scan wRay wTree [wPrim] rfl (Built.one wPrim)
    wBoxesContain (F.fin (1/1000)) F.pinf (by simp) (by simp) (by simp [F.flt])

/-- TILE_SIZE from src/common/raytracer.rs. -/
def TILE : ℕ := 16

/-- The critical section of the render worker loop (src/common/raytracer.rs
lines 80-99): read the cursor as the claimed position, advance it by one tile
in row-major order wrapping rows, and — when the cursor has moved past the
last row — either claim nothing (the early return taken when another thread
already rendered the last tile, recognizable by guard.0 == TILE_SIZE) or
claim the read position anyway.  Returns the new cursor and the claimed
origin (none for the early return).  The mutex serializes these operations,
so any multi-threaded execution is one interleaved sequence of them. -/
def claimStep (w h : ℕ) (s : ℕ × ℕ) : (ℕ × ℕ) × Option (ℕ × ℕ) :=
  let g0 := s.1 + TILE
  let g : ℕ × ℕ := if g0 ≥ w then (0, s.2 + TILE) else (g0, s.2)
  if g.2 ≥ h then
    if g.1 = TILE then ((0, g.2), none)
    else (g, some s)
  else (g, some s)

/-- The cursor value after n claim operations, from the initial (0, 0). -/
def cursorAfter (w h : ℕ) : ℕ → ℕ × ℕ
  | 0 => (0, 0)
  | n + 1 => (claimStep w h (cursorAfter w h n)).1

/-- The origin claimed by the (n+1)-st claim operation, if any. -/
def emitAt (w h n : ℕ) : Option (ℕ × ℕ) :=
  (claimStep w h (cursorAfter w h n)).2

/-- The origins of all tiles rendered by the first n claim operations of any
schedule (each claim with a some origin renders and sends exactly one tile). -/
def emittedOrigins (w h n : ℕ) : List (ℕ × ℕ) :=
  (List.range n).filterMap (emitAt w h)

/-- Number of tile columns. -/
def tilesX (w : ℕ) : ℕ := (w + TILE - 1) / TILE

/-- Number of tile rows. -/
def tilesY (h : ℕ) : ℕ := (h + TILE - 1) / TILE

/-- Number of in-bounds tiles. -/
def totalTiles (w h : ℕ) : ℕ := tilesY h * tilesX w

/-- The claim operation in case-split form. -/
lemma claimStep_eq (w h : ℕ) (s : ℕ × ℕ) :
    claimStep w h s =
      if w ≤ s.1 + TILE then ((0, s.2 + TILE), some s)
      else if h ≤ s.2 then
        (if s.1 + TILE = TILE then ((0, s.2), none)
         else ((s.1 + TILE, s.2), some s))
      else ((s.1 + TILE, s.2), some s) := by
  rcases s with ⟨x, y⟩
  unfold claimStep TILE
  simp only [ge_iff_le]
  split_ifs <;> first | rfl | omega | simp_all

/-- A claim from an in-grid cursor position claims that position and advances
one step in row-major order. -/
lemma claimStep_grid (w h : ℕ) (hw : 1 ≤ w) (hh : 1 ≤ h) (i j : ℕ)
    (hi : i < tilesX w) (hj : j < tilesY h) :
    claimStep w h (TILE * i, TILE * j) =
      ((if i + 1 < tilesX w then (TILE * (i + 1), TILE * j)
        else (0, TILE * (j + 1))),
       some (TILE * i, TILE * j)) := by
  have hb1 : w ≤ 16 * tilesX w := by unfold tilesX TILE; omega
  have hb2 : 16 * tilesX w < w + 16 := by unfold tilesX TILE; omega
  have hb3 : h ≤ 16 * tilesY h := by unfold tilesY TILE; omega
  have hb4 : 16 * tilesY h < h + 16 := by unfold tilesY TILE; omega
  have hmx : 16 * (i + 1) ≤ 16 * tilesX w := Nat.mul_le_mul_left _ (by omega)
  have hmy : 16 * (j + 1) ≤ 16 * tilesY h := Nat.mul_le_mul_left _ (by omega)
  rw [claimStep_eq]
  by_cases hA : i + 1 < tilesX w
  · have hmx2 : 16 * (i + 2) ≤ 16 * tilesX w := Nat.mul_le_mul_left _ (by omega)
    rw [if_neg (by simp only [TILE]; omega)]
    rw [if_neg (by simp only [TILE]; omega)]
    rw [if_pos hA]
    dsimp only
    simp only [Prod.mk.injEq, Option.some.injEq, TILE, and_true, true_and]
    omega
  · have hieq : 16 * (i + 1) = 16 * tilesX w := by
      have : i + 1 = tilesX w := by omega
      rw [this]
    rw [if_pos (by simp only [TILE]; omega)]
    rw [if_neg hA]
    dsimp only
    simp only [Prod.mk.injEq, Option.some.injEq, TILE, and_true, true_and]
    omega

/-- A claim from the post-grid sentinel when the image is at most one tile
wide: the wrap fires immediately, so the claim emits a stray out-of-bounds
tile and pushes the sentinel down a row. -/
lemma claimStep_stray_narrow (w h : ℕ) (hw : w ≤ TILE) {y : ℕ} (hy : h ≤ y) :
    claimStep w h (0, y) = ((0, y + TILE), some (0, y)) := by
  rw [claimStep_eq]
  rw [if_pos (by simp only []; omega)]

/-- A claim from the post-grid sentinel when the image is wider than one
tile: the early return fires, claiming nothing and leaving the cursor. -/
lemma claimStep_stray_wide (w h : ℕ) (hw : TILE < w) {y : ℕ} (hy : h ≤ y) :
    claimStep w h (0, y) = ((0, y), none) := by
  rw [claimStep_eq]
  rw [if_neg (by simp only []; omega), if_pos (by simp only []; exact hy),
    if_pos (by simp only []; omega)]

/-- The cursor walks the tile grid in row-major order: after j full rows and
i further claims it sits at grid position (i, j). -/
lemma cursor_grid (w h : ℕ) (hw : 1 ≤ w) (hh : 1 ≤ h) :
    ∀ j, j < tilesY h → ∀ i, i < tilesX w →
      cursorAfter w h (j * tilesX w + i) = (TILE * i, TILE * j) := by
  intro j
  induction j with
  | zero =>
    intro _ i
    induction i with
    | zero =>
      intro _
      norm_num [cursorAfter, TILE]
    | succ i ihi =>
      intro hi
      have hi2 : i < tilesX w := by omega
      have hidx : 0 * tilesX w + (i + 1) = (0 * tilesX w + i) + 1 := by omega
      rw [hidx, cursorAfter, ihi hi2,
        claimStep_grid w h hw hh i 0 hi2 (by unfold tilesY TILE; omega)]
      dsimp only
      rw [if_pos hi]
  | succ j ihj =>
    intro hj i
    induction i with
    | zero =>
      intro _
      have hjlt : j < tilesY h := by omega
      have htx1 : 1 ≤ tilesX w := by unfold tilesX TILE; omega
      have hlast := ihj hjlt (tilesX w - 1) (by omega)
      have hsm : (j + 1) * tilesX w = j * tilesX w + tilesX w := by ring
      have hidx : (j + 1) * tilesX w + 0 =
          (j * tilesX w + (tilesX w - 1)) + 1 := by omega
      have hB : tilesX w - 1 < tilesX w := by omega
      rw [hidx, cursorAfter, hlast, claimStep_grid w h hw hh (tilesX w - 1) j hB hjlt]
      dsimp only
      have hC : ¬ (tilesX w - 1 + 1 < tilesX w) := by omega
      rw [if_neg hC]
      simp
    | succ i ihi =>
      intro hi
      have hi2 : i < tilesX w := by omega
      have hidx : (j + 1) * tilesX w + (i + 1) =
          ((j + 1) * tilesX w + i) + 1 := by omega
      rw [hidx, cursorAfter, ihi hi2,
        claimStep_grid w h hw hh i (j + 1) hi2 hj]
      dsimp only
      rw [if_pos hi]

/-- Every in-grid claim emits exactly its grid origin. -/
lemma emitAt_grid (w h : ℕ) (hw : 1 ≤ w) (hh : 1 ≤ h) (i j : ℕ)
    (hi : i < tilesX w) (hj : j < tilesY h) :
    emitAt w h (j * tilesX w + i) = some (TILE * i, TILE * j) := by
  unfold emitAt
  rw [cursor_grid w h hw hh j hj i hi,
    claimStep_grid w h hw hh i j hi hj]

/-- After all in-grid claims the cursor sits at the sentinel (0, past the
last row). -/
lemma cursor_total (w h : ℕ) (hw : 1 ≤ w) (hh : 1 ≤ h) :
    cursorAfter w h (totalTiles w h) = (0, TILE * tilesY h) := by
  have htx1 : 1 ≤ tilesX w := by unfold tilesX TILE; omega
  have hty1 : 1 ≤ tilesY h := by unfold tilesY TILE; omega
  have h1 : tilesY h - 1 + 1 = tilesY h := by omega
  have h2 : (tilesY h - 1 + 1) * tilesX w =
      (tilesY h - 1) * tilesX w + tilesX w := by ring
  rw [h1] at h2
  have hidx : totalTiles w h =
      ((tilesY h - 1) * tilesX w + (tilesX w - 1)) + 1 := by
    unfold totalTiles
    omega
  have hA : tilesY h - 1 < tilesY h := by omega
  have hB : tilesX w - 1 < tilesX w := by omega
  rw [hidx, cursorAfter,
    cursor_grid w h hw hh (tilesY h - 1) hA (tilesX w - 1) hB,
    claimStep_grid w h hw hh (tilesX w - 1) (tilesY h - 1) hB hA]
  dsimp only
  have hC : ¬ (tilesX w - 1 + 1 < tilesX w) := by omega
  rw [if_neg hC, h1]

/-- After the grid is exhausted the cursor stays at the sentinel (wide
images) or sinks one out-of-bounds row per claim (images at most one tile
wide, where the wrap fires before the early-return check). -/
lemma cursor_stray (w h : ℕ) (hw : 1 ≤ w) (hh : 1 ≤ h) :
    ∀ d, cursorAfter w h (totalTiles w h + d) =
      (0, TILE * tilesY h + (if w ≤ TILE then TILE * d else 0)) := by
  have hb3 : h ≤ TILE * tilesY h := by unfold tilesY TILE; omega
  intro d
  induction d with
  | zero =>
    rw [Nat.add_zero, cursor_total w h hw hh]
    by_cases hw16 : w ≤ TILE <;> simp [hw16]
  | succ d ih =>
    have hidx : totalTiles w h + (d + 1) = (totalTiles w h + d) + 1 := by omega
    rw [hidx, cursorAfter, ih]
    by_cases hw16 : w ≤ TILE
    · have hy : h ≤ TILE * tilesY h + TILE * d := by omega
      rw [if_pos hw16, claimStep_stray_narrow w h hw16 hy]
      dsimp only
      rw [if_pos hw16]
      simp only [Prod.mk.injEq, TILE, true_and, and_true]
      omega
    · have hgt : TILE < w := by omega
      have hy : h ≤ TILE * tilesY h + 0 := by omega
      rw [if_neg hw16, claimStep_stray_wide w h hgt hy]
      simp [hw16]

/-- Post-grid claims emit only out-of-bounds strays (one per claim for images
at most one tile wide) or nothing at all. -/
lemma emitAt_stray (w h : ℕ) (hw : 1 ≤ w) (hh : 1 ≤ h) (d : ℕ) :
    emitAt w h (totalTiles w h + d) =
      if w ≤ TILE then some ((0 : ℕ), TILE * tilesY h + TILE * d) else none := by
  have hb3 : h ≤ TILE * tilesY h := by unfold tilesY TILE; omega
  unfold emitAt
  rw [cursor_stray w h hw hh d]
  by_cases hw16 : w ≤ TILE
  · have hy : h ≤ TILE * tilesY h + TILE * d := by omega
    rw [if_pos hw16, if_pos hw16, claimStep_stray_narrow w h hw16 hy]
  · have hgt : TILE < w := by omega
    have hy : h ≤ TILE * tilesY h + 0 := by omega
    rw [if_neg hw16, if_neg hw16, claimStep_stray_wide w h hgt hy]

/-- Characterization of an arbitrary in-grid claim by its linear index. -/
lemma emitAt_lt_total (w h : ℕ) (hw : 1 ≤ w) (hh : 1 ≤ h) (k : ℕ)
    (hk : k < totalTiles w h) :
    emitAt w h k = some (TILE * (k % tilesX w), TILE * (k / tilesX w)) := by
  have htx1 : 1 ≤ tilesX w := by unfold tilesX TILE; omega
  have hmod : k % tilesX w < tilesX w := Nat.mod_lt _ (by omega)
  have hdiv : k / tilesX w < tilesY h := by
    rw [Nat.div_lt_iff_lt_mul (by omega : 0 < tilesX w)]
    unfold totalTiles at hk
    exact hk
  have hdm := Nat.div_add_mod k (tilesX w)
  have hcomm : tilesX w * (k / tilesX w) = (k / tilesX w) * tilesX w :=
    Nat.mul_comm _ _
  have hidx : k = (k / tilesX w) * tilesX w + (k % tilesX w) := by omega
  have hg := emitAt_grid w h hw hh (k % tilesX w) (k / tilesX w) hmod hdiv
  rw [← hidx] at hg
  exact hg

/-- Counting over a filterMap counts sources whose image satisfies the
predicate. -/
lemma countP_filterMap {α β : Type} (f : α → Option β) (p : β → Bool)
    (l : List α) :
    (l.filterMap f).countP p =
      l.countP (fun a => ((f a).map p).getD false) := by
  induction l with
  | nil => rfl
  | cons a l ih =>
    cases hf : f a with
    | none => simp [List.filterMap_cons, List.countP_cons, hf, ih]
    | some b => simp [List.filterMap_cons, List.countP_cons, hf, ih]

/-- A predicate holding at exactly one index below n is counted once over
List.range n. -/
lemma countP_range_unique (P : ℕ → Bool) (k0 : ℕ) (hP : P k0 = true) :
    ∀ n, k0 < n → (∀ k, k < n → P k = true → k = k0) →
      (List.range n).countP P = 1 := by
  intro n
  induction n with
  | zero => intro hn _; omega
  | succ n ih =>
    intro hk0 huniq
    rw [List.range_succ, List.countP_append]
    by_cases hk : k0 = n
    · subst hk
      have h0 : (List.range k0).countP P = 0 := by
        rw [List.countP_eq_zero]
        intro a ha hPa
        rw [List.mem_range] at ha
        have := huniq a (by omega) hPa
        omega
      rw [h0]
      simp [hP]
    · have hPn : P n = false := by
        by_contra hc
        rw [Bool.not_eq_false] at hc
        exact hk (huniq n (by omega) hc).symm
      rw [ih (by omega) (fun k hkn hPk => huniq k (by omega) hPk)]
      simp [hPn]

/-- Any predicate that picks out exactly one grid origin and rejects the
stray out-of-bounds origins is counted exactly once among the origins the
scheduler emits, once at least totalTiles claims have happened. -/
lemma emitted_count_one (w h n : ℕ) (hw : 1 ≤ w) (hh : 1 ≤ h)
    (hn : totalTiles w h ≤ n) (p : ℕ × ℕ → Bool) (i0 j0 : ℕ)
    (hi0 : i0 < tilesX w) (hj0 : j0 < tilesY h)
    (hptrue : p (TILE * i0, TILE * j0) = true)
    (hpgrid : ∀ i j, i < tilesX w → j < tilesY h →
        p (TILE * i, TILE * j) = true → i = i0 ∧ j = j0)
    (hpstray : ∀ d, p (0, TILE * tilesY h + TILE * d) = false) :
    (emittedOrigins w h n).countP p = 1 := by
  have htx1 : 1 ≤ tilesX w := by unfold tilesX TILE; omega
  have hty1 : 1 ≤ tilesY h := by unfold tilesY TILE; omega
  have h1 : tilesY h - 1 + 1 = tilesY h := by omega
  have h2 : (tilesY h - 1 + 1) * tilesX w =
      (tilesY h - 1) * tilesX w + tilesX w := by ring
  rw [h1] at h2
  have h3 : tilesX w * j0 ≤ tilesX w * (tilesY h - 1) :=
    Nat.mul_le_mul_left _ (by omega)
  have h3a : tilesX w * j0 = j0 * tilesX w := Nat.mul_comm _ _
  have h3b : tilesX w * (tilesY h - 1) = (tilesY h - 1) * tilesX w :=
    Nat.mul_comm _ _
  have hk0T : j0 * tilesX w + i0 < totalTiles w h := by
    unfold totalTiles
    omega
  unfold emittedOrigins
  rw [countP_filterMap]
  apply countP_range_unique _ (j0 * tilesX w + i0) _ n (by omega)
  · intro k hkn hQ
    by_cases hkT : k < totalTiles w h
    · have he := emitAt_lt_total w h hw hh k hkT
      simp only [he, Option.map_some', Option.getD_some] at hQ
      have hmod : k % tilesX w < tilesX w := Nat.mod_lt _ (by omega)
      have hdiv : k / tilesX w < tilesY h := by
        rw [Nat.div_lt_iff_lt_mul (by omega : 0 < tilesX w)]
        unfold totalTiles at hkT
        exact hkT
      obtain ⟨hi, hj⟩ := hpgrid _ _ hmod hdiv hQ
      have hdm := Nat.div_add_mod k (tilesX w)
      have hcongr : tilesX w * (k / tilesX w) = tilesX w * j0 := by rw [hj]
      omega
    · have hd : k = totalTiles w h + (k - totalTiles w h) := by omega
      have he := emitAt_stray w h hw hh (k - totalTiles w h)
      rw [← hd] at he
      by_cases hw16 : w ≤ TILE
      · rw [if_pos hw16] at he
        simp only [he, Option.map_some', Option.getD_some,
          hpstray (k - totalTiles w h)] at hQ
        exact Bool.noConfusion hQ
      · rw [if_neg hw16] at he
        simp only [he, Option.map_none', Option.getD_none] at hQ
        exact Bool.noConfusion hQ
  · have he := emitAt_grid w h hw hh i0 j0 hi0 hj0
    simp only [he, Option.map_some', Option.getD_some]
    exact hptrue

/-- Each in-bounds pixel lies in the region of exactly one emitted tile. -/
lemma region_count_one (w h n px py : ℕ)
    (hw : 1 ≤ w) (hh : 1 ≤ h) (hn : totalTiles w h ≤ n)
    (hpx : px < w) (hpy : py < h) :
    ((emittedOrigins w h n).countP fun o =>
        decide (o.1 ≤ px ∧ px < o.1 + TILE ∧ o.2 ≤ py ∧ py < o.2 + TILE)) = 1 := by
  have hb1 : w ≤ 16 * tilesX w := by unfold tilesX TILE; omega
  have hb3 : h ≤ TILE * tilesY h := by unfold tilesY TILE; omega
  apply emitted_count_one w h n hw hh hn _ (px / TILE) (py / TILE)
  · unfold tilesX TILE at *
    omega
  · unfold tilesY TILE at *
    omega
  · simp only [TILE, decide_eq_true_eq]
    omega
  · intro i' j' _ _ hp
    simp only [TILE, decide_eq_true_eq] at hp
    constructor <;> [skip; skip] <;> unfold TILE <;> omega
  · intro d
    rw [decide_eq_false_iff_not]
    rintro ⟨-, -, hc, -⟩
    have hd0 : 0 ≤ TILE * d := Nat.zero_le _
    omega

/-- Each in-grid tile origin is emitted exactly once. -/
lemma origin_count_one (w h n i j : ℕ)
    (hw : 1 ≤ w) (hh : 1 ≤ h) (hn : totalTiles w h ≤ n)
    (hi : i < tilesX w) (hj : j < tilesY h) :
    ((emittedOrigins w h n).countP fun o =>
        decide (o = (TILE * i, TILE * j))) = 1 := by
  have hb3 : h ≤ TILE * tilesY h := by unfold tilesY TILE; omega
  apply emitted_count_one w h n hw hh hn _ i j hi hj
  · simp
  · intro i' j' _ _ hp
    simp only [decide_eq_true_eq, Prod.mk.injEq, TILE] at hp
    omega
  · intro d
    rw [decide_eq_false_iff_not]
    rintro hc
    rw [Prod.mk.injEq] at hc
    have hmj : TILE * j < TILE * tilesY h := by
      have : (0 : ℕ) < TILE := by unfold TILE; omega
      exact (Nat.mul_lt_mul_left this).mpr hj
    have hd0 : 0 ≤ TILE * d := Nat.zero_le _
    omega

/-- C3: for every image width W >= 1 and height H >= 1, once the shared
cursor has been claimed at least totalTiles times, the pixel regions of the
emitted tiles, clipped to the image, cover every in-bounds pixel exactly
once (the stray tiles an image at most one tile wide can emit lie entirely
below the image, so their clipped regions are empty), and each in-grid tile
origin is claimed exactly once. -/
theorem tile_coverage_exactly_once (w h n px py i j : ℕ)
    (hw : 1 ≤ w) (hh : 1 ≤ h) (hn : totalTiles w h ≤ n)
    (hpx : px < w) (hpy : py < h) (hi : i < tilesX w) (hj : j < tilesY h) :
    ((emittedOrigins w h n).countP fun o =>
        decide (o.1 ≤ px ∧ px < o.1 + TILE ∧ o.2 ≤ py ∧ py < o.2 + TILE)) = 1 ∧
    ((emittedOrigins w h n).countP fun o =>
        decide (o = (TILE * i, TILE * j))) = 1 :=
  ⟨region_count_one w h n px py hw hh hn hpx hpy,
   origin_count_one w h n i j hw hh hn hi hj⟩

/-- One pixel's sampling loop (raytracer.rs lines 115-136): spp samples,
each advancing the rng, summed into the accumulator; the per-sample work
(camera ray plus ray_color) is abstracted as `sample`. -/
def sppLoop {σ : Type} (sample : σ → ℕ → ℕ → Color × σ) (i j : ℕ) :
    ℕ → Color × σ → Color × σ
  | 0, acc => acc
  | m + 1, acc =>
    let r := sample acc.2 i j
    sppLoop sample i j m (Vec3.add acc.1 r.1, r.2)

/-- The inner column loop (lines 110-140): i from x upward for TILE steps,
skipping columns past the image width, writing one averaged pixel each. -/
def rowLoop {σ : Type} (sample : σ → ℕ → ℕ → Color × σ) (spp w j : ℕ) :
    ℕ → ℕ → σ → List ((ℕ × ℕ) × Color) × σ
  | 0, _, s => ([], s)
  | k + 1, i, s =>
    if w ≤ i then rowLoop sample spp w j k (i + 1) s
    else
      let res := sppLoop sample i j spp (Vec3.zero, s)
      let rest := rowLoop sample spp w j k (i + 1) res.2
      (((i, j), Vec3.smul (1 / (spp : ℚ)) res.1) :: rest.1, rest.2)

/-- The outer row loop (lines 105-141): j from y+TILE-1 down to y, skipping
rows past the image height. -/
def colLoop {σ : Type} (sample : σ → ℕ → ℕ → Color × σ) (spp w h x y : ℕ) :
    ℕ → σ → List ((ℕ × ℕ) × Color) × σ
  | 0, s => ([], s)
  | k + 1, s =>
    if h ≤ y + k then colLoop sample spp w h x y k s
    else
      let row := rowLoop sample spp w (y + k) TILE x s
      let rest := colLoop sample spp w h x y k row.2
      (row.1 ++ rest.1, rest.2)

/-- One tile's render (lines 101-145): a fresh rng seeded from
seed XOR x XOR y, then the row-major fill; the emitted tile is its list of
written pixels. -/
def renderTile {σ : Type} (seedFrom : ℕ → σ) (sample : σ → ℕ → ℕ → Color × σ)
    (spp w h seed : ℕ) (o : ℕ × ℕ) : List ((ℕ × ℕ) × Color) :=
  (colLoop sample spp w h o.1 o.2 TILE
    (seedFrom (Nat.xor (Nat.xor seed o.1) o.2))).1

/-- The receiver's framebuffer assembly: each arriving write is stored at
its pixel coordinates, later writes shadowing earlier ones. -/
def applyWrites (ws : List ((ℕ × ℕ) × Color)) (fb : ℕ × ℕ → Option Color) :
    ℕ × ℕ → Option Color :=
  ws.foldl (fun f wr => fun q => if q = wr.1 then some wr.2 else f q) fb

/-- A full render: the tiles of the arriving claim origins, assembled into
an initially empty framebuffer in arrival order. -/
def renderImage {σ : Type} (seedFrom : ℕ → σ) (sample : σ → ℕ → ℕ → Color × σ)
    (spp w h seed : ℕ) (arrival : List (ℕ × ℕ)) : ℕ × ℕ → Option Color :=
  applyWrites (arrival.flatMap (renderTile seedFrom sample spp w h seed))
    (fun _ => none)

lemma applyWrites_cons (wr : (ℕ × ℕ) × Color) (ws : List ((ℕ × ℕ) × Color))
    (fb : ℕ × ℕ → Option Color) :
    applyWrites (wr :: ws) fb =
      applyWrites ws (fun q => if q = wr.1 then some wr.2 else fb q) := rfl

/-- The assembled value at a pixel depends on the initial framebuffer only
through its value at that pixel. -/
lemma applyWrites_congr (q : ℕ × ℕ) :
    ∀ (ws : List ((ℕ × ℕ) × Color)) (fb1 fb2 : ℕ × ℕ → Option Color),
      fb1 q = fb2 q → applyWrites ws fb1 q = applyWrites ws fb2 q := by
  intro ws
  induction ws with
  | nil => intro fb1 fb2 hfb; exact hfb
  | cons wr ws ih =>
    intro fb1 fb2 hfb
    rw [applyWrites_cons, applyWrites_cons]
    apply ih
    dsimp only
    rw [hfb]

/-- The assembled value at a pixel is determined by the writes targeting
that pixel. -/
lemma applyWrites_filter (q : ℕ × ℕ) :
    ∀ (ws : List ((ℕ × ℕ) × Color)) (fb : ℕ × ℕ → Option Color),
      applyWrites ws fb q =
        applyWrites (ws.filter (fun wr => decide (wr.1 = q))) fb q := by
  intro ws
  induction ws with
  | nil => intro fb; rfl
  | cons wr ws ih =>
    intro fb
    by_cases hq : wr.1 = q
    · rw [List.filter_cons_of_pos (by simp [hq])]
      rw [applyWrites_cons, applyWrites_cons]
      exact ih _
    · rw [List.filter_cons_of_neg (by simp [hq])]
      rw [applyWrites_cons, ih]
      apply applyWrites_congr
      dsimp only
      rw [if_neg (fun hqq => hq hqq.symm)]

/-- If exactly one write targets a pixel, the assembled value is that
write's color, whatever the order of the other writes. -/
lemma applyWrites_single (ws : List ((ℕ × ℕ) × Color))
    (fb : ℕ × ℕ → Option Color) (q : ℕ × ℕ) (c : Color)
    (hf : ws.filter (fun wr => decide (wr.1 = q)) = [(q, c)]) :
    applyWrites ws fb q = some c := by
  rw [applyWrites_filter q ws fb, hf, applyWrites_cons]
  simp [applyWrites]

/-- Flattening a family of lists of which exactly one is a fixed non-empty
list and the rest are empty yields that list, in any order. -/
lemma flatMap_eq_single {α β : Type} (g : α → List β) (P : α → Bool)
    (res : List β) :
    ∀ l : List α, l.countP P = 1 →
      (∀ o ∈ l, P o = true → g o = res) →
      (∀ o ∈ l, P o = false → g o = []) →
      l.flatMap g = res := by
  intro l
  induction l with
  | nil => intro hc _ _; simp at hc
  | cons a l ih =>
    intro hc htrue hfalse
    rw [List.countP_cons] at hc
    rw [List.flatMap_cons]
    by_cases hPa : P a = true
    · rw [htrue a (List.mem_cons_self a l) hPa]
      have hl0 : l.countP P = 0 := by
        rw [if_pos hPa] at hc
        omega
      have hnil : l.flatMap g = [] := by
        apply List.bind_eq_nil.mpr
        intro x hx
        have hnx := List.countP_eq_zero.mp hl0 x hx
        have hPx : P x = false := by
          cases hb : P x
          · rfl
          · exact absurd hb hnx
        exact hfalse x (List.mem_cons_of_mem a hx) hPx
      rw [hnil, List.append_nil]
    · have hPa' : P a = false := by
        cases hb : P a
        · rfl
        · exact absurd hb hPa
      rw [hfalse a (List.mem_cons_self a l) hPa', List.nil_append]
      have hc' : l.countP P = 1 := by
        rw [if_neg (by simp [hPa'])] at hc
        omega
      exact ih hc' (fun o ho hP => htrue o (List.mem_cons_of_mem a ho) hP)
        (fun o ho hP => hfalse o (List.mem_cons_of_mem a ho) hP)

/-- Every emitted origin is either an in-grid tile corner or a stray lying
entirely below the image. -/
lemma mem_emittedOrigins (w h n : ℕ) (hw : 1 ≤ w) (hh : 1 ≤ h)
    (o : ℕ × ℕ) (hmem : o ∈ emittedOrigins w h n) :
    (∃ i j, i < tilesX w ∧ j < tilesY h ∧ o = (TILE * i, TILE * j)) ∨
    (∃ d, o = (0, TILE * tilesY h + TILE * d)) := by
  unfold emittedOrigins at hmem
  rw [List.mem_filterMap] at hmem
  obtain ⟨k, hk, he⟩ := hmem
  by_cases hkT : k < totalTiles w h
  · left
    rw [emitAt_lt_total w h hw hh k hkT] at he
    have htx1 : 1 ≤ tilesX w := by unfold tilesX TILE; omega
    refine ⟨k % tilesX w, k / tilesX w, Nat.mod_lt _ (by omega), ?_, ?_⟩
    · rw [Nat.div_lt_iff_lt_mul (by omega : 0 < tilesX w)]
      unfold totalTiles at hkT
      exact hkT
    · exact (Option.some.inj he).symm
  · right
    have hd : k = totalTiles w h + (k - totalTiles w h) := by omega
    have hs := emitAt_stray w h hw hh (k - totalTiles w h)
    rw [← hd] at hs
    by_cases hw16 : w ≤ TILE
    · rw [if_pos hw16] at hs
      rw [hs] at he
      exact ⟨k - totalTiles w h, (Option.some.inj he).symm⟩
    · rw [if_neg hw16] at hs
      rw [hs] at he
      exact absurd he (by simp)

/-- A row writes nothing at a pixel outside its column span or row. -/
lemma rowLoop_filter_none {σ : Type} (sample : σ → ℕ → ℕ → Color × σ)
    (spp w j px py : ℕ) :
    ∀ k i s, (px < i ∨ i + k ≤ px ∨ j ≠ py) →
      ((rowLoop sample spp w j k i s).1.filter
        (fun wr => decide (wr.1 = (px, py)))) = [] := by
  intro k
  induction k with
  | zero => intro i s _; rfl
  | succ k ih =>
    intro i s hcase
    have hnext : px < i + 1 ∨ (i + 1) + k ≤ px ∨ j ≠ py := by
      rcases hcase with hc | hc | hc
      · exact Or.inl (by omega)
      · exact Or.inr (Or.inl (by omega))
      · exact Or.inr (Or.inr hc)
    rw [rowLoop]
    by_cases hwi : w ≤ i
    · rw [if_pos hwi]
      exact ih (i + 1) s hnext
    · rw [if_neg hwi]
      have hne : (decide (((i, j) : ℕ × ℕ) = (px, py))) = false := by
        rw [decide_eq_false_iff_not]
        intro he
        rw [Prod.mk.injEq] at he
        obtain ⟨he1, he2⟩ := he
        rcases hcase with hc | hc | hc
        · omega
        · omega
        · exact hc he2
      simp only [List.filter_cons, hne, Bool.false_eq_true, if_false]
      exact ih (i + 1) _ hnext

/-- A row writes exactly once at an in-bounds pixel of its row within its
column span. -/
lemma rowLoop_filter_some {σ : Type} (sample : σ → ℕ → ℕ → Color × σ)
    (spp w px py : ℕ) (hpx : px < w) :
    ∀ k i s, i ≤ px → px < i + k →
      ∃ c, ((rowLoop sample spp w py k i s).1.filter
        (fun wr => decide (wr.1 = (px, py)))) = [((px, py), c)] := by
  intro k
  induction k with
  | zero => intro i s h1 h2; omega
  | succ k ih =>
    intro i s h1 h2
    rw [rowLoop]
    by_cases hwi : w ≤ i
    · exact absurd hwi (by omega)
    · rw [if_neg hwi]
      by_cases hip : i = px
      · subst hip
        refine ⟨Vec3.smul (1 / (spp : ℚ))
            (sppLoop sample i py spp (Vec3.zero, s)).1, ?_⟩
        have htail := rowLoop_filter_none sample spp w py i py k (i + 1)
            (sppLoop sample i py spp (Vec3.zero, s)).2 (Or.inl (by omega))
        simp only [List.filter_cons, decide_eq_true_eq, htail]
        simp
      · have hne : (decide (((i, py) : ℕ × ℕ) = (px, py))) = false := by
          rw [decide_eq_false_iff_not]
          intro he
          rw [Prod.mk.injEq] at he
          exact hip he.1
        obtain ⟨c, hc⟩ := ih (i + 1)
          ((sppLoop sample i py spp (Vec3.zero, s)).2) (by omega) (by omega)
        refine ⟨c, ?_⟩
        simp only [List.filter_cons, hne, Bool.false_eq_true, if_false]
        exact hc

/-- A tile fill writes nothing at a pixel outside the tile's region. -/
lemma colLoop_filter_none {σ : Type} (sample : σ → ℕ → ℕ → Color × σ)
    (spp w h x y px py : ℕ) :
    ∀ k s, (py < y ∨ y + k ≤ py ∨ px < x ∨ x + TILE ≤ px) →
      ((colLoop sample spp w h x y k s).1.filter
        (fun wr => decide (wr.1 = (px, py)))) = [] := by
  intro k
  induction k with
  | zero => intro s _; rfl
  | succ k ih =>
    intro s hcase
    have hnext : py < y ∨ y + k ≤ py ∨ px < x ∨ x + TILE ≤ px := by
      rcases hcase with hc | hc | hc | hc
      · exact Or.inl hc
      · exact Or.inr (Or.inl (by omega))
      · exact Or.inr (Or.inr (Or.inl hc))
      · exact Or.inr (Or.inr (Or.inr hc))
    rw [colLoop]
    by_cases hhy : h ≤ y + k
    · rw [if_pos hhy]
      exact ih s hnext
    · rw [if_neg hhy]
      have hrow := rowLoop_filter_none sample spp w (y + k) px py TILE x s
        (by
          rcases hcase with hc | hc | hc | hc
          · exact Or.inr (Or.inr (by omega))
          · exact Or.inr (Or.inr (by omega))
          · exact Or.inl hc
          · exact Or.inr (Or.inl hc))
      simp only [List.filter_append, hrow, List.nil_append]
      exact ih _ hnext

/-- A tile fill writes exactly once at an in-bounds pixel of its region. -/
lemma colLoop_filter_some {σ : Type} (sample : σ → ℕ → ℕ → Color × σ)
    (spp w h x y px py : ℕ) (hpx : px < w) (hpy : py < h)
    (hx1 : x ≤ px) (hx2 : px < x + TILE) :
    ∀ k s, y ≤ py → py < y + k →
      ∃ c, ((colLoop sample spp w h x y k s).1.filter
          (fun wr => decide (wr.1 = (px, py)))) = [((px, py), c)] := by
  intro k
  induction k with
  | zero => intro s h1 h2; omega
  | succ k ih =>
    intro s h1 h2
    rw [colLoop]
    by_cases hpk : py = y + k
    · rw [if_neg (by omega)]
      obtain ⟨c, hrow⟩ := rowLoop_filter_some sample spp w px (y + k) hpx
        TILE x s hx1 hx2
      have hrest := colLoop_filter_none sample spp w h x y px (y + k) k
        ((rowLoop sample spp w (y + k) TILE x s).2)
        (Or.inr (Or.inl (by omega)))
      rw [hpk]
      refine ⟨c, ?_⟩
      simp only [List.filter_append, hrow, hrest, List.append_nil]
    · by_cases hhk : h ≤ y + k
      · rw [if_pos hhk]
        exact ih s h1 (by omega)
      · rw [if_neg hhk]
        obtain ⟨c, hrest⟩ := ih
          ((rowLoop sample spp w (y + k) TILE x s).2) h1 (by omega)
        have hrow := rowLoop_filter_none sample spp w (y + k) px py TILE x s
          (Or.inr (Or.inr (by omega)))
        refine ⟨c, ?_⟩
        simp only [List.filter_append, hrow, hrest, List.nil_append]

/-- A tile covering an in-bounds pixel writes to it exactly once. -/
lemma renderTile_filter_some {σ : Type} (seedFrom : ℕ → σ)
    (sample : σ → ℕ → ℕ → Color × σ) (spp w h seed px py : ℕ) (o : ℕ × ℕ)
    (hpx : px < w) (hpy : py < h)
    (hcov : o.1 ≤ px ∧ px < o.1 + TILE ∧ o.2 ≤ py ∧ py < o.2 + TILE) :
    ∃ c, ((renderTile seedFrom sample spp w h seed o).filter
        (fun wr => decide (wr.1 = (px, py)))) = [((px, py), c)] := by
  obtain ⟨h1, h2, h3, h4⟩ := hcov
  unfold renderTile
  exact colLoop_filter_some sample spp w h o.1 o.2 px py hpx hpy h1 h2
    TILE _ h3 h4

/-- A tile not covering a pixel never writes to it. -/
lemma renderTile_filter_none {σ : Type} (seedFrom : ℕ → σ)
    (sample : σ → ℕ → ℕ → Color × σ) (spp w h seed px py : ℕ) (o : ℕ × ℕ)
    (hncov : ¬(o.1 ≤ px ∧ px < o.1 + TILE ∧ o.2 ≤ py ∧ py < o.2 + TILE)) :
    ((renderTile seedFrom sample spp w h seed o).filter
        (fun wr => decide (wr.1 = (px, py)))) = [] := by
  unfold renderTile
  apply colLoop_filter_none
  omega

/-- C4: rendering is deterministic. With a fixed seed and fixed per-sample
tracer (scene, camera, background, dimensions, spp, max_depth are folded
into `sample`), each tile is a pure function of the seed and its origin
(its rng is seeded from seed XOR x XOR y), so two full renders whose tiles
arrive in any orders — any thread assignment and completion order, and any
claim counts covering the grid — assemble identical framebuffers, and every
in-bounds pixel is actually written. -/
theorem render_deterministic {σ : Type} (seedFrom : ℕ → σ)
    (sample : σ → ℕ → ℕ → Color × σ) (spp w h seed n1 n2 : ℕ)
    (hw : 1 ≤ w) (hh : 1 ≤ h)
    (hn1 : totalTiles w h ≤ n1) (hn2 : totalTiles w h ≤ n2)
    (l1 l2 : List (ℕ × ℕ))
    (hp1 : l1.Perm (emittedOrigins w h n1))
    (hp2 : l2.Perm (emittedOrigins w h n2))
    (px py : ℕ) (hpx : px < w) (hpy : py < h) :
    renderImage seedFrom sample spp w h seed l1 (px, py) =
      renderImage seedFrom sample spp w h seed l2 (px, py) ∧
    ∃ c, renderImage seedFrom sample spp w h seed l1 (px, py) = some c := by
  have hb3 : h ≤ TILE * tilesY h := by unfold tilesY TILE; omega
  obtain ⟨c0, hres⟩ := renderTile_filter_some seedFrom sample spp w h seed
    px py (TILE * (px / TILE), TILE * (py / TILE)) hpx hpy
    (by refine ⟨?_, ?_, ?_, ?_⟩ <;> simp only [TILE] <;> omega)
  have key : ∀ (n : ℕ), totalTiles w h ≤ n → ∀ (l : List (ℕ × ℕ)),
      l.Perm (emittedOrigins w h n) →
      renderImage seedFrom sample spp w h seed l (px, py) = some c0 := by
    intro n hn l hp
    unfold renderImage
    apply applyWrites_single _ _ _ c0
    rw [List.filter_flatMap]
    apply flatMap_eq_single _
      (fun o => decide (o.1 ≤ px ∧ px < o.1 + TILE ∧ o.2 ≤ py ∧ py < o.2 + TILE))
      _ l
    · rw [hp.countP_eq]
      exact region_count_one w h n px py hw hh hn hpx hpy
    · intro o ho hPo
      rcases mem_emittedOrigins w h n hw hh o (hp.subset ho) with
        ⟨i, j, hi, hj, rfl⟩ | ⟨d, rfl⟩
      · simp only [decide_eq_true_eq] at hPo
        have hij : ((TILE * i, TILE * j) : ℕ × ℕ) =
            (TILE * (px / TILE), TILE * (py / TILE)) := by
          simp only [TILE] at *
          rw [Prod.mk.injEq]
          omega
        rw [hij]
        exact hres
      · simp only [decide_eq_true_eq] at hPo
        obtain ⟨-, -, hc, -⟩ := hPo
        have hd0 : 0 ≤ TILE * d := Nat.zero_le _
        omega
    · intro o ho hPo
      apply renderTile_filter_none
      rw [decide_eq_false_iff_not] at hPo
      exact hPo
  exact ⟨(key n1 hn1 l1 hp1).trans (key n2 hn2 l2 hp2).symm,
    ⟨c0, key n1 hn1 l1 hp1⟩⟩

/-- Concrete check of C4 on a 17x5 image (two tiles wide): the run whose
two tiles arrive in claim order and a second run with an extra empty claim
whose tiles arrive reversed agree at pixel (16, 0), and that pixel is
written. -/
theorem render_deterministic_witness :
    (renderImage (id : ℕ → ℕ) (fun s _ _ => ((⟨1, 1, 1⟩ : Vec3), s + 1))
        1 17 5 0 (emittedOrigins 17 5 2) (16, 0) =
      renderImage (id : ℕ → ℕ) (fun s _ _ => ((⟨1, 1, 1⟩ : Vec3), s + 1))
        1 17 5 0 ((emittedOrigins 17 5 3).reverse) (16, 0)) ∧
    ∃ c, renderImage (id : ℕ → ℕ) (fun s _ _ => ((⟨1, 1, 1⟩ : Vec3), s + 1))
        1 17 5 0 (emittedOrigins 17 5 2) (16, 0) = some c :=
  render_deterministic (id : ℕ → ℕ) (fun s _ _ => (⟨1, 1, 1⟩, s + 1))
    1 17 5 0 2 3 (by decide) (by decide) (by decide) (by decide)
    (emittedOrigins 17 5 2) ((emittedOrigins 17 5 3).reverse)
    (List.Perm.refl _) (List.reverse_perm _) 16 0 (by decide) (by decide)

/-- Concrete check of C3 on a 37x20 image: 6 tiles, pixel (20, 17) is
covered once, and the middle tile origin (16, 16) is claimed once. -/
theorem tile_coverage_exactly_once_witness :
    ((emittedOrigins 37 20 7).countP fun o =>
        decide (o.1 ≤ 20 ∧ 20 < o.1 + TILE ∧ o.2 ≤ 17 ∧ 17 < o.2 + TILE)) = 1 ∧
    ((emittedOrigins 37 20 7).countP fun o =>
        decide (o = (TILE * 1, TILE * 1))) = 1 :=
  tile_coverage_exactly_once 37 20 7 20 17 1 1 (by decide) (by decide)
    (by decide) (by decide) (by decide) (by decide) (by decide)

end RT
